import Mathlib

/-!
# Verification of the PIZ compression codec orchestration layer

Shallow embedding of `src/compression/piz/mod.rs` (the PIZ block
compressor/decompressor of an OpenEXR-style image library) together with
proofs of the specification claims about it.

Modelling conventions:
* Rust `u16` / `u8` / `usize` values are `Nat` (with explicit `< 65536` /
  `< 256` side conditions where the claims need them);
* Rust `i32` is `Int`; where 32-bit overflow matters the arithmetic is
  wrapped explicitly through `wrap32` (release-mode wrapping semantics);
* Rust `Vec<T>` / slices are `List Nat`;
* fallible code returns an explicit result type; a Rust panic (`unwrap`,
  out-of-bounds slice, failed `expect`) is the distinguished result
  `CResult.crash`.

The `huffman` and `wavelet` collaborator modules are not part of the
sources; they are modelled from the specification's contracts (§4.3, §4.4),
see the individual definitions.
-/

namespace Piz

/-- `U16_RANGE` from the source: `(1 << 16) as usize`. -/
def U16_RANGE : Nat := 65536

/-- `BITMAP_SIZE` from the source: `U16_RANGE >> 3`. -/
def BITMAP_SIZE : Nat := 8192

/-! ## `div_p` / `mod_p`

The source implements C-style positive-remainder division on `i32`:

```rust
fn div_p (x: i32, y: i32) -> i32 {
    if x >= 0 {
        if y >= 0 { x  / y }
        else { -(x  / -y) }
    }
    else {
        if y >= 0 { -((y-1-x) / y) }
        else { (-y-1-x) / -y }
    }
}

fn mod_p(x: i32, y: i32) -> i32 {
    x - y * div_p(x, y)
}
```

`div_p` is embedded twice: once with exact integer arithmetic (`div_p`,
`mod_p` below; Rust `/` on `i32` is truncating division, `Int.tdiv`), and
once with explicit 32-bit wrapping on every intermediate operation
(`div_p32`, `mod_p32`), which is Rust's release-mode semantics.  The two
agree whenever no intermediate value overflows `i32`.
-/

/-- Exact-arithmetic embedding of the source's `div_p` (Rust `/` on `i32`
is truncating division, `Int.tdiv`). -/
def div_p (x y : Int) : Int :=
  if 0 ≤ x then
    if 0 ≤ y then x.tdiv y
    else -(x.tdiv (-y))
  else
    if 0 ≤ y then -((y - 1 - x).tdiv y)
    else (-y - 1 - x).tdiv (-y)

/-- Exact-arithmetic embedding of the source's `mod_p`. -/
def mod_p (x y : Int) : Int := x - y * div_p x y

/-- Reduction of a mathematical integer to the `i32` value with the same
low 32 bits (Rust release-mode wrapping). -/
def wrap32 (z : Int) : Int := (z + 2 ^ 31) % 2 ^ 32 - 2 ^ 31

/-- Embedding of the source's `div_p` with every intermediate `i32`
addition, subtraction, negation and multiplication wrapped to 32 bits
(Rust release-mode semantics).  Division results of in-range operands are
in range in every reachable branch, so they carry no wrap. -/
def div_p32 (x y : Int) : Int :=
  if 0 ≤ x then
    if 0 ≤ y then x.tdiv y
    else wrap32 (-(x.tdiv (wrap32 (-y))))
  else
    if 0 ≤ y then wrap32 (-((wrap32 (wrap32 (y - 1) - x)).tdiv y))
    else (wrap32 (wrap32 (wrap32 (-y) - 1) - x)).tdiv (wrap32 (-y))

/-- Embedding of the source's `mod_p` with wrapped 32-bit arithmetic. -/
def mod_p32 (x y : Int) : Int := wrap32 (x - wrap32 (y * div_p32 x y))

theorem wrap32_id {z : Int} (h₁ : -(2 ^ 31) ≤ z) (h₂ : z < 2 ^ 31) :
    wrap32 z = z := by
  unfold wrap32
  omega

/-- The defining identity `mod_p x y + y * div_p x y = x` holds outright
in exact arithmetic. -/
theorem mod_p_add_mul_div_p (x y : Int) : mod_p x y + y * div_p x y = x := by
  unfold mod_p
  ring

/-- Exact-arithmetic `mod_p` lands in `[0, |y|)` for every `x` and every
nonzero `y`. -/
theorem mod_p_nonneg_lt (x y : Int) (hy : y ≠ 0) :
    0 ≤ mod_p x y ∧ mod_p x y < |y| := by
  unfold mod_p div_p
  rcases le_or_lt 0 x with hx | hx <;> rcases le_or_lt 0 y with hy' | hy'
  · -- 0 ≤ x, 0 < y
    have hy0 : 0 < y := lt_of_le_of_ne hy' (Ne.symm hy)
    rw [if_pos hx, if_pos hy', Int.tdiv_eq_ediv hx hy', abs_of_nonneg hy']
    have h1 := Int.ediv_add_emod x y
    have h2 := Int.emod_nonneg x hy
    have h3 := Int.emod_lt_of_pos x hy0
    generalize ht : y * (x / y) = t at h1 ⊢
    generalize hr : x % y = r at h1 h2 h3
    omega
  · -- 0 ≤ x, y < 0
    rw [if_pos hx, if_neg (not_le.mpr hy'),
      Int.tdiv_eq_ediv hx (by omega : (0:Int) ≤ -y), abs_of_neg hy', mul_neg,
      sub_neg_eq_add]
    have h1 := Int.ediv_add_emod x (-y)
    have h2 := Int.emod_nonneg x (by omega : -y ≠ 0)
    have h3 := Int.emod_lt_of_pos x (by omega : (0:Int) < -y)
    rw [neg_mul] at h1
    generalize ht : y * (x / -y) = t at h1 ⊢
    generalize hr : x % (-y) = r at h1 h2 h3
    omega
  · -- x < 0, 0 < y
    have hy0 : 0 < y := lt_of_le_of_ne hy' (Ne.symm hy)
    rw [if_neg (not_le.mpr hx), if_pos hy',
      Int.tdiv_eq_ediv (by omega : (0:Int) ≤ y - 1 - x) hy',
      abs_of_nonneg hy', mul_neg, sub_neg_eq_add]
    have h1 := Int.ediv_add_emod (y - 1 - x) y
    have h2 := Int.emod_nonneg (y - 1 - x) hy
    have h3 := Int.emod_lt_of_pos (y - 1 - x) hy0
    generalize ht : y * ((y - 1 - x) / y) = t at h1 ⊢
    generalize hr : (y - 1 - x) % y = r at h1 h2 h3
    omega
  · -- x < 0, y < 0
    rw [if_neg (not_le.mpr hx), if_neg (not_le.mpr hy'),
      Int.tdiv_eq_ediv (by omega : (0:Int) ≤ -y - 1 - x)
        (by omega : (0:Int) ≤ -y), abs_of_neg hy']
    have h1 := Int.ediv_add_emod (-y - 1 - x) (-y)
    have h2 := Int.emod_nonneg (-y - 1 - x) (by omega : -y ≠ 0)
    have h3 := Int.emod_lt_of_pos (-y - 1 - x) (by omega : (0:Int) < -y)
    rw [neg_mul] at h1
    generalize ht : y * ((-y - 1 - x) / -y) = t at h1 ⊢
    generalize hr : (-y - 1 - x) % (-y) = r at h1 h2 h3
    omega

/-- Spec seed scenario 8: sample values of `mod_p`. -/
theorem mod_p_seed_values :
    mod_p (-1) 3 = 2 ∧ mod_p (-7) 3 = 2 ∧ mod_p 6 3 = 0 ∧
      mod_p (-6) (-3) = 0 ∧ mod_p 5 (-3) = 2 := by decide

/-- Where no intermediate value overflows `i32`, the wrapping `div_p32`
agrees with the exact `div_p`. -/
theorem div_p32_eq_div_p (x y : Int)
    (hx₁ : -(2 ^ 31) ≤ x) (hx₂ : x < 2 ^ 31)
    (hy₁ : -(2 ^ 31) < y) (hy₂ : y < 2 ^ 31) (hy : y ≠ 0)
    (hov₁ : x < 0 → 0 < y → y - 1 - x < 2 ^ 31)
    (hov₂ : x < 0 → y < 0 → -y - 1 - x < 2 ^ 31) :
    div_p32 x y = div_p x y := by
  unfold div_p32 div_p
  rcases le_or_lt 0 x with hx | hx <;> rcases le_or_lt 0 y with hy' | hy'
  · simp only [if_pos hx, if_pos hy']
  · -- 0 ≤ x, y < 0
    simp only [if_pos hx, if_neg (not_le.mpr hy')]
    rw [wrap32_id (by omega) (by omega : -y < 2 ^ 31)]
    rw [Int.tdiv_eq_ediv hx (by omega : (0:Int) ≤ -y)]
    have hq1 : 0 ≤ x / (-y) := Int.ediv_nonneg hx (by omega)
    have hq2 : x / (-y) ≤ x := Int.ediv_le_self (-y) hx
    exact wrap32_id (by omega) (by omega)
  · -- x < 0, 0 < y
    have hy0 : 0 < y := lt_of_le_of_ne hy' (Ne.symm hy)
    have hnum2 : y - 1 - x < 2 ^ 31 := hov₁ hx hy0
    simp only [if_neg (not_le.mpr hx), if_pos hy']
    rw [wrap32_id (by omega : -(2 ^ 31) ≤ y - 1) (by omega),
      wrap32_id (by omega : -(2 ^ 31) ≤ y - 1 - x) hnum2]
    rw [Int.tdiv_eq_ediv (by omega : (0:Int) ≤ y - 1 - x) hy']
    have hq1 : 0 ≤ (y - 1 - x) / y := Int.ediv_nonneg (by omega) (by omega)
    have hq2 : (y - 1 - x) / y ≤ y - 1 - x := Int.ediv_le_self y (by omega)
    exact wrap32_id (by omega) (by omega)
  · -- x < 0, y < 0
    have hnum2 : -y - 1 - x < 2 ^ 31 := hov₂ hx hy'
    simp only [if_neg (not_le.mpr hx), if_neg (not_le.mpr hy')]
    rw [wrap32_id (by omega : -(2 ^ 31) ≤ -y) (by omega),
      wrap32_id (by omega : -(2 ^ 31) ≤ -y - 1) (by omega),
      wrap32_id (by omega : -(2 ^ 31) ≤ -y - 1 - x) hnum2]

/-- Where no intermediate value overflows `i32`, the wrapping `mod_p32`
agrees with the exact `mod_p`. -/
theorem mod_p32_eq_mod_p (x y : Int)
    (hx₁ : -(2 ^ 31) ≤ x) (hx₂ : x < 2 ^ 31)
    (hy₁ : -(2 ^ 31) < y) (hy₂ : y < 2 ^ 31) (hy : y ≠ 0)
    (hov₁ : x < 0 → 0 < y → y - 1 - x < 2 ^ 31)
    (hov₂ : x < 0 → y < 0 → -y - 1 - x < 2 ^ 31) :
    mod_p32 x y = mod_p x y := by
  unfold mod_p32
  rw [div_p32_eq_div_p x y hx₁ hx₂ hy₁ hy₂ hy hov₁ hov₂]
  have hb := mod_p_nonneg_lt x y hy
  have hid := mod_p_add_mul_div_p x y
  have hmul : y * div_p x y = x - mod_p x y := by
    set t := y * div_p x y with ht
    omega
  rw [hmul]
  have habs : mod_p x y < 2 ^ 31 ∧ -(2 ^ 31) < x - mod_p x y := by
    rcases le_or_lt 0 y with hys | hys
    · rw [abs_of_nonneg hys] at hb
      rcases le_or_lt 0 x with hxs | hxs
      · omega
      · have := hov₁ hxs (by omega)
        omega
    · rw [abs_of_neg hys] at hb
      rcases le_or_lt 0 x with hxs | hxs
      · omega
      · have := hov₂ hxs hys
        omega
  rw [wrap32_id (z := x - mod_p x y) (by omega) (by omega), sub_sub_cancel,
    wrap32_id (by omega) (by omega)]

/-- C2 (amended): for `i32` inputs `x`, `y` with `y ≠ 0` such that no
intermediate computation of `div_p` overflows 32 bits (which excludes
`y = i32::MIN` and, for negative `x`, the corner where `±y - 1 - x`
exceeds `i32::MAX`), `mod_p(x, y)` lies in `[0, |y|)` and
`mod_p(x, y) + y * div_p(x, y) = x`. -/
theorem mod_p32_range_and_identity (x y : Int)
    (hx₁ : -(2 ^ 31) ≤ x) (hx₂ : x < 2 ^ 31)
    (hy₁ : -(2 ^ 31) < y) (hy₂ : y < 2 ^ 31) (hy : y ≠ 0)
    (hov₁ : x < 0 → 0 < y → y - 1 - x < 2 ^ 31)
    (hov₂ : x < 0 → y < 0 → -y - 1 - x < 2 ^ 31) :
    0 ≤ mod_p32 x y ∧ mod_p32 x y < |y| ∧
      mod_p32 x y + y * div_p32 x y = x := by
  rw [mod_p32_eq_mod_p x y hx₁ hx₂ hy₁ hy₂ hy hov₁ hov₂,
    div_p32_eq_div_p x y hx₁ hx₂ hy₁ hy₂ hy hov₁ hov₂]
  exact ⟨(mod_p_nonneg_lt x y hy).1, (mod_p_nonneg_lt x y hy).2,
    mod_p_add_mul_div_p x y⟩

/-- Witness for `mod_p32_range_and_identity` at `x = -1`, `y = 3`. -/
theorem mod_p32_range_and_identity_witness :
    0 ≤ mod_p32 (-1) 3 ∧ mod_p32 (-1) 3 < |(3:Int)| ∧
      mod_p32 (-1) 3 + 3 * div_p32 (-1) 3 = -1 :=
  mod_p32_range_and_identity (-1) 3 (by decide) (by decide) (by decide)
    (by decide) (by decide) (by decide) (by decide)

/-- C2 fails as stated: at `x = i32::MIN`, `y = i32::MAX` (both
representable signed 32-bit values, `y ≠ 0`), the intermediate
`y - 1 - x` wraps and `mod_p` returns `i32::MIN`, which is not in
`[0, |y|)`. -/
theorem mod_p32_range_counterexample :
    mod_p32 (-(2 ^ 31)) (2 ^ 31 - 1) = -(2 ^ 31) ∧
      ¬(0 ≤ mod_p32 (-(2 ^ 31)) (2 ^ 31 - 1)) := by decide

/-! ## Occupancy bitmap and lookup tables

```rust
pub fn bitmap_from_data(data: &[u16]) -> (usize, usize, [u8; BITMAP_SIZE]) {
    let mut bitmap = [0_u8; BITMAP_SIZE];
    for value in data {
        bitmap[*value as usize >> 3] |= 1 << (*value as u8 & 7);
    }
    bitmap[0] = bitmap[0] & !1;
    let mut min = bitmap.len() - 1;
    let mut max = 0;
    for (bit_index, &bit) in bitmap.iter().enumerate() {
        if bit != 0 { min = min.min(bit_index); max = max.max(bit_index); }
    }
    (min, max, bitmap)
}
```

The bitmap is a `List Nat` of `BITMAP_SIZE` bytes.  The three phases of
`bitmap_from_data` (bit setting, masking bit 0, min/max scan) are named
separately so each can be characterised on its own.
-/

/-- One `bitmap[v >> 3] |= 1 << (v as u8 & 7)` update. -/
def setBitFor (bm : List Nat) (v : Nat) : List Nat :=
  bm.set (v >>> 3) (bm.getD (v >>> 3) 0 ||| 1 <<< (v % 8))

/-- The bit-setting loop of `bitmap_from_data`. -/
def rawBitmap (data : List Nat) : List Nat :=
  data.foldl setBitFor (List.replicate BITMAP_SIZE 0)

/-- `bitmap[0] = bitmap[0] & !1` (in `u8`, `!1 = 254`). -/
def maskedBitmap (data : List Nat) : List Nat :=
  (rawBitmap data).set 0 ((rawBitmap data).getD 0 0 &&& 254)

/-- One step of the min/max scan over the enumerated bitmap. -/
def mmStep (mm : Nat × Nat) (p : Nat × Nat) : Nat × Nat :=
  if p.2 ≠ 0 then (min mm.1 p.1, max mm.2 p.1) else mm

/-- The min/max scan of `bitmap_from_data`: running minimum starts at
`bitmap.len() - 1`, running maximum at `0`. -/
def scanMinMax (bm : List Nat) : Nat × Nat :=
  bm.enum.foldl mmStep (bm.length - 1, 0)

/-- `bitmap_from_data` from the source: build the occupancy bitmap of
`data`, force bit 0 clear, and scan for the lowest/highest nonzero byte. -/
def bitmap_from_data (data : List Nat) : Nat × Nat × List Nat :=
  ((scanMinMax (maskedBitmap data)).1, (scanMinMax (maskedBitmap data)).2,
    maskedBitmap data)

/-- The bit test `bitmap[i >> 3] & (1 << (i & 7)) != 0` used by both
lookup-table builders. -/
def bitTestB (bm : List Nat) (i : Nat) : Bool :=
  bm.getD (i >>> 3) 0 &&& 1 <<< (i % 8) != 0

/-- The presence test of the lookup-table builders:
`index == 0 || bitmap[index >> 3] & (1 << (index & 7)) != 0`. -/
def presentB (bm : List Nat) (i : Nat) : Bool :=
  i == 0 || bitTestB bm i

/-- `reverse_lookup_table_from_bitmap` from the source: push every present
index in order, remember `table.len() - 1` as `max_value`, then resize the
table to `U16_RANGE` with zeros. -/
def reverse_lookup_table_from_bitmap (bm : List Nat) : List Nat × Nat :=
  ((List.range U16_RANGE).filter (presentB bm) ++
      List.replicate (U16_RANGE - ((List.range U16_RANGE).filter (presentB bm)).length) 0,
    ((List.range U16_RANGE).filter (presentB bm)).length - 1)

/-- The entry-filling loop of `forward_lookup_table_from_bitmap`: walk the
index list, give each present index the next dense rank, keep absent
entries 0, and return the final count. -/
def fwdAux (bm : List Nat) (count : Nat) : List Nat → List Nat × Nat
  | [] => ([], count)
  | i :: rest =>
    if presentB bm i then
      (count :: (fwdAux bm (count + 1) rest).1, (fwdAux bm (count + 1) rest).2)
    else
      (0 :: (fwdAux bm count rest).1, (fwdAux bm count rest).2)

/-- `forward_lookup_table_from_bitmap` from the source: returns
`(count - 1, table)`. -/
def forward_lookup_table_from_bitmap (bm : List Nat) : Nat × List Nat :=
  ((fwdAux bm 0 (List.range U16_RANGE)).2 - 1,
    (fwdAux bm 0 (List.range U16_RANGE)).1)

/-- `apply_lookup_table` from the source: `data[k] = table[data[k]]`. -/
def apply_lookup_table (data table : List Nat) : List Nat :=
  data.map fun v => table.getD v 0

/-! ### Bit-level helpers -/

theorem and_two_pow_eq (b k : Nat) :
    b &&& 2 ^ k = if b.testBit k then 2 ^ k else 0 := by
  apply Nat.eq_of_testBit_eq
  intro j
  rw [Nat.testBit_and, Nat.testBit_two_pow]
  rcases eq_or_ne k j with rfl | hkj
  · rcases h : b.testBit k with _ | _ <;> simp [h]
  · split <;> simp [Nat.testBit_two_pow, hkj, Ne.symm hkj]

theorem bne_and_two_pow (b k : Nat) :
    (b &&& 2 ^ k != 0) = b.testBit k := by
  rcases h : b.testBit k with _ | _ <;>
    · rw [and_two_pow_eq, h]
      simp [(Nat.two_pow_pos k).ne']

/-- Normal form of the bit test in terms of `/`, `%` and `testBit`. -/
theorem bitTestB_eq_testBit (bm : List Nat) (i : Nat) :
    bitTestB bm i = (bm.getD (i / 8) 0).testBit (i % 8) := by
  unfold bitTestB
  rw [Nat.shiftRight_eq_div_pow, Nat.one_shiftLeft]
  exact bne_and_two_pow (bm.getD (i / 2 ^ 3) 0) (i % 8)

/-- Normal form of `setBitFor` in terms of `/` and `2 ^ (v % 8)`. -/
theorem setBitFor_eq (bm : List Nat) (v : Nat) :
    setBitFor bm v = bm.set (v / 8) (bm.getD (v / 8) 0 ||| 2 ^ (v % 8)) := by
  unfold setBitFor
  rw [Nat.shiftRight_eq_div_pow, Nat.one_shiftLeft]

theorem getD_set_self {l : List Nat} {a x : Nat} (h : a < l.length) :
    (l.set a x).getD a 0 = x := by
  simp [List.getD_eq_getElem?_getD, List.getElem?_set_self h]

theorem getD_set_ne {l : List Nat} {a j x : Nat} (h : a ≠ j) :
    (l.set a x).getD j 0 = l.getD j 0 := by
  simp [List.getD_eq_getElem?_getD, List.getElem?_set_ne h]

theorem getD_replicate_zero (n j : Nat) :
    (List.replicate n (0:Nat)).getD j 0 = 0 := by
  simp only [List.getD_eq_getElem?_getD, List.getElem?_replicate]
  split <;> rfl

theorem setBitFor_length (bm : List Nat) (v : Nat) :
    (setBitFor bm v).length = bm.length := by
  simp [setBitFor]

theorem foldl_setBitFor_length (data : List Nat) : ∀ bm : List Nat,
    (data.foldl setBitFor bm).length = bm.length := by
  induction data with
  | nil => intro bm; rfl
  | cons v rest ih =>
    intro bm
    rw [List.foldl_cons, ih, setBitFor_length]

theorem rawBitmap_length (data : List Nat) :
    (rawBitmap data).length = BITMAP_SIZE := by
  rw [rawBitmap, foldl_setBitFor_length, List.length_replicate]

theorem maskedBitmap_length (data : List Nat) :
    (maskedBitmap data).length = BITMAP_SIZE := by
  rw [maskedBitmap, List.length_set, rawBitmap_length]

/-- Setting bit `v` sets exactly bit `v` and leaves all other bits. -/
theorem bitTestB_setBitFor (bm : List Nat) (v i : Nat)
    (hbm : bm.length = BITMAP_SIZE) (hv : v < U16_RANGE) (hi : i < U16_RANGE) :
    bitTestB (setBitFor bm v) i = (bitTestB bm i || i == v) := by
  rw [setBitFor_eq, bitTestB_eq_testBit, bitTestB_eq_testBit]
  rcases eq_or_ne (v / 8) (i / 8) with hb | hb
  · rw [← hb, getD_set_self (by rw [hbm]; unfold BITMAP_SIZE; unfold U16_RANGE at hv; omega),
      Nat.testBit_or, Nat.testBit_two_pow]
    congr 1
    by_cases h : i = v
    · subst h; simp
    · have : v % 8 ≠ i % 8 := by omega
      simp [this]
      exact h
  · rw [getD_set_ne hb]
    have : i ≠ v := by rintro rfl; exact hb rfl
    simp [this]

/-- Bits accumulated by the bit-setting loop: a bit is set in the result
iff it was set in the accumulator or its value occurs in the data. -/
theorem bitTestB_foldl_setBitFor (data : List Nat) : ∀ bm : List Nat,
    bm.length = BITMAP_SIZE → (∀ v ∈ data, v < U16_RANGE) →
    ∀ i, i < U16_RANGE →
      (bitTestB (data.foldl setBitFor bm) i = true ↔
        bitTestB bm i = true ∨ i ∈ data) := by
  induction data with
  | nil => simp
  | cons v rest ih =>
    intro bm hbm hd i hi
    rw [List.foldl_cons,
      ih (setBitFor bm v) (by rw [setBitFor_length, hbm])
        (fun w hw => hd w (List.mem_cons_of_mem v hw)) i hi,
      bitTestB_setBitFor bm v i hbm (hd v (List.mem_cons_self v rest)) hi]
    simp only [List.mem_cons, Bool.or_eq_true, beq_iff_eq]
    tauto

/-- A bit is set in `rawBitmap data` iff its value occurs in `data`. -/
theorem bitTestB_rawBitmap (data : List Nat) (hd : ∀ v ∈ data, v < U16_RANGE)
    (i : Nat) (hi : i < U16_RANGE) :
    bitTestB (rawBitmap data) i = true ↔ i ∈ data := by
  rw [rawBitmap,
    bitTestB_foldl_setBitFor data (List.replicate BITMAP_SIZE 0)
      (List.length_replicate ..) hd i hi]
  have hz : bitTestB (List.replicate BITMAP_SIZE 0) i = false := by
    rw [bitTestB_eq_testBit, getD_replicate_zero]
    simp
  simp [hz]

/-- Masking `bitmap[0] &= !1` leaves every bit other than bit 0. -/
theorem bitTestB_maskedBitmap (data : List Nat) (i : Nat) (hi1 : 1 ≤ i)
    (hi : i < U16_RANGE) :
    bitTestB (maskedBitmap data) i = bitTestB (rawBitmap data) i := by
  rw [bitTestB_eq_testBit, bitTestB_eq_testBit]
  unfold maskedBitmap
  rcases eq_or_ne (i / 8) 0 with h8 | h8
  · rw [h8, getD_set_self (by rw [rawBitmap_length]; unfold BITMAP_SIZE; omega),
      Nat.testBit_and]
    have hlt : i < 8 := by omega
    have him : i % 8 = i := by omega
    have h254 : (254:Nat).testBit (i % 8) = true := by
      rw [him]
      interval_cases i <;> decide
    rw [h254, Bool.and_true]
  · rw [getD_set_ne (Ne.symm h8)]

/-- Bit 0 of `maskedBitmap` is always clear. -/
theorem bitTestB_maskedBitmap_zero (data : List Nat) :
    bitTestB (maskedBitmap data) 0 = false := by
  rw [bitTestB_eq_testBit]
  rw [show (0:Nat) / 8 = 0 from rfl, show (0:Nat) % 8 = 0 from rfl]
  unfold maskedBitmap
  rw [getD_set_self (by rw [rawBitmap_length]; unfold BITMAP_SIZE; omega),
    Nat.testBit_and]
  rw [show (254:Nat).testBit 0 = false from by decide, Bool.and_false]

/-- The min/max fold starting at offset `n` with accumulator `(a, b)`. -/
def mmFold (l : List Nat) (n a b : Nat) : Nat × Nat :=
  (l.enumFrom n).foldl mmStep (a, b)

theorem mmFold_nil (n a b : Nat) : mmFold [] n a b = (a, b) := rfl

theorem mmFold_cons (x : Nat) (xs : List Nat) (n a b : Nat) :
    mmFold (x :: xs) n a b =
      if x ≠ 0 then mmFold xs (n + 1) (min a n) (max b n)
      else mmFold xs (n + 1) a b := by
  unfold mmFold
  rw [List.enumFrom_cons, List.foldl_cons]
  unfold mmStep
  split <;> rfl

/-- Full invariant of the min/max scan:
1. an all-zero suffix leaves the accumulator unchanged;
2. the running minimum only decreases, the running maximum only increases;
3. every nonzero position is bracketed by the result;
4. the resulting minimum is either the initial accumulator or a nonzero
   position, and likewise for the maximum. -/
theorem mmFold_spec (l : List Nat) : ∀ n a b : Nat,
    ((∀ x ∈ l, x = 0) → mmFold l n a b = (a, b)) ∧
    (mmFold l n a b).1 ≤ a ∧ b ≤ (mmFold l n a b).2 ∧
    (∀ j, j < l.length → l.getD j 0 ≠ 0 →
      (mmFold l n a b).1 ≤ n + j ∧ n + j ≤ (mmFold l n a b).2) ∧
    ((mmFold l n a b).1 = a ∨
      (n ≤ (mmFold l n a b).1 ∧ (mmFold l n a b).1 - n < l.length ∧
        l.getD ((mmFold l n a b).1 - n) 0 ≠ 0)) ∧
    ((mmFold l n a b).2 = b ∨
      (n ≤ (mmFold l n a b).2 ∧ (mmFold l n a b).2 - n < l.length ∧
        l.getD ((mmFold l n a b).2 - n) 0 ≠ 0)) := by
  induction l with
  | nil =>
    intro n a b
    simp [mmFold_nil]
  | cons x xs ih =>
    intro n a b
    rw [mmFold_cons]
    by_cases hx : x = 0
    · rw [if_neg (by simpa using hx)]
      obtain ⟨ih1, ih2, ih3, ih4, ih5, ih6⟩ := ih (n + 1) a b
      refine ⟨?_, ih2, ih3, ?_, ?_, ?_⟩
      · intro hall
        exact ih1 fun y hy => hall y (List.mem_cons_of_mem x hy)
      · intro j hj hnz
        match j with
        | 0 => exact absurd (List.getD_cons_zero ▸ hnz) (by simpa using hx)
        | j' + 1 =>
          rw [List.getD_cons_succ] at hnz
          have := ih4 j' (by simpa using hj) hnz
          omega
      · rcases ih5 with h | ⟨h1, h2, h3⟩
        · exact Or.inl h
        · refine Or.inr ⟨by omega, by simp; omega, ?_⟩
          have hidx : (mmFold xs (n + 1) a b).1 - n =
              ((mmFold xs (n + 1) a b).1 - (n + 1)) + 1 := by omega
          rw [hidx, List.getD_cons_succ]
          exact h3
      · rcases ih6 with h | ⟨h1, h2, h3⟩
        · exact Or.inl h
        · refine Or.inr ⟨by omega, by simp; omega, ?_⟩
          have hidx : (mmFold xs (n + 1) a b).2 - n =
              ((mmFold xs (n + 1) a b).2 - (n + 1)) + 1 := by omega
          rw [hidx, List.getD_cons_succ]
          exact h3
    · rw [if_pos (by simpa using hx)]
      obtain ⟨ih1, ih2, ih3, ih4, ih5, ih6⟩ := ih (n + 1) (min a n) (max b n)
      refine ⟨?_, by omega, by omega, ?_, ?_, ?_⟩
      · intro hall
        exact absurd (hall x (List.mem_cons_self x xs)) hx
      · intro j hj hnz
        match j with
        | 0 =>
          have h1 := ih2
          have h2 := ih3
          omega
        | j' + 1 =>
          rw [List.getD_cons_succ] at hnz
          have := ih4 j' (by simpa using hj) hnz
          omega
      · rcases ih5 with h | ⟨h1, h2, h3⟩
        · rcases Nat.le_total a n with hc | hc
          · exact Or.inl (by omega)
          · refine Or.inr ⟨by omega, by simp; omega, ?_⟩
            have hidx : (mmFold xs (n + 1) (min a n) (max b n)).1 - n = 0 := by
              omega
            rw [hidx, List.getD_cons_zero]
            exact hx
        · refine Or.inr ⟨by omega, by simp; omega, ?_⟩
          have hidx : (mmFold xs (n + 1) (min a n) (max b n)).1 - n =
              ((mmFold xs (n + 1) (min a n) (max b n)).1 - (n + 1)) + 1 := by
            omega
          rw [hidx, List.getD_cons_succ]
          exact h3
      · rcases ih6 with h | ⟨h1, h2, h3⟩
        · rcases Nat.le_total b n with hc | hc
          · refine Or.inr ⟨by omega, by simp; omega, ?_⟩
            have hidx : (mmFold xs (n + 1) (min a n) (max b n)).2 - n = 0 := by
              omega
            rw [hidx, List.getD_cons_zero]
            exact hx
          · exact Or.inl (by omega)
        · refine Or.inr ⟨by omega, by simp; omega, ?_⟩
          have hidx : (mmFold xs (n + 1) (min a n) (max b n)).2 - n =
              ((mmFold xs (n + 1) (min a n) (max b n)).2 - (n + 1)) + 1 := by
            omega
          rw [hidx, List.getD_cons_succ]
          exact h3

theorem scanMinMax_eq_mmFold (bm : List Nat) :
    scanMinMax bm = mmFold bm 0 (bm.length - 1) 0 := rfl

/-- Characterisation of the min/max scan: if some byte is nonzero, the
scan returns the exact bracket of the nonzero bytes (and both ends are
themselves nonzero); otherwise it returns `(len - 1, 0)`. -/
theorem scanMinMax_spec (bm : List Nat) :
    ((∃ j, j < bm.length ∧ bm.getD j 0 ≠ 0) →
      bm.getD (scanMinMax bm).1 0 ≠ 0 ∧ bm.getD (scanMinMax bm).2 0 ≠ 0 ∧
        ∀ j, j < bm.length → bm.getD j 0 ≠ 0 →
          (scanMinMax bm).1 ≤ j ∧ j ≤ (scanMinMax bm).2) ∧
    ((∀ j, j < bm.length → bm.getD j 0 = 0) →
      (scanMinMax bm).1 = bm.length - 1 ∧ (scanMinMax bm).2 = 0) := by
  rw [scanMinMax_eq_mmFold]
  obtain ⟨h1, h2, h3, h4, h5, h6⟩ := mmFold_spec bm 0 (bm.length - 1) 0
  constructor
  · rintro ⟨j, hj, hnz⟩
    have hbr := h4 j hj hnz
    refine ⟨?_, ?_, fun j' hj' hnz' => by have := h4 j' hj' hnz'; omega⟩
    · rcases h5 with h | ⟨_, _, hz⟩
      · -- the minimum stayed at `len - 1`; then `j = len - 1` is nonzero
        have : j = bm.length - 1 := by omega
        rw [h]
        rw [this] at hnz
        exact hnz
      · simpa using hz
    · rcases h6 with h | ⟨_, _, hz⟩
      · -- the maximum stayed at `0`; then `j = 0` is nonzero
        have : j = 0 := by omega
        rw [h]
        rw [this] at hnz
        exact hnz
      · simpa using hz
  · intro hall
    have : ∀ x ∈ bm, x = 0 := by
      intro x hx
      obtain ⟨k, hk, rfl⟩ := List.getElem_of_mem hx
      have := hall k hk
      rwa [List.getD_eq_getElem?_getD, List.getElem?_eq_getElem hk] at this
    rw [h1 this]
    exact ⟨rfl, rfl⟩

/-- C5: for every `u16` data slice, `bitmap_from_data` returns a bitmap in
which, for every `i ≥ 1`, bit `i` is set iff value `i` occurs in the data;
bit 0 is always clear; and `min`/`max` bracket exactly the nonzero bitmap
bytes (with both ends themselves nonzero) — or are `(8191, 0)` when no
byte is nonzero, so that `min > max` signals empty occupancy. -/
theorem bitmap_from_data_spec (data : List Nat)
    (hd : ∀ v ∈ data, v < U16_RANGE) :
    (∀ i, 1 ≤ i → i < U16_RANGE →
      (bitTestB (bitmap_from_data data).2.2 i = true ↔ i ∈ data)) ∧
    bitTestB (bitmap_from_data data).2.2 0 = false ∧
    (bitmap_from_data data).2.2.length = BITMAP_SIZE ∧
    ((∃ j, j < BITMAP_SIZE ∧ (bitmap_from_data data).2.2.getD j 0 ≠ 0) →
      (bitmap_from_data data).2.2.getD (bitmap_from_data data).1 0 ≠ 0 ∧
        (bitmap_from_data data).2.2.getD (bitmap_from_data data).2.1 0 ≠ 0 ∧
        ∀ j, j < BITMAP_SIZE → (bitmap_from_data data).2.2.getD j 0 ≠ 0 →
          (bitmap_from_data data).1 ≤ j ∧ j ≤ (bitmap_from_data data).2.1) ∧
    ((∀ j, j < BITMAP_SIZE → (bitmap_from_data data).2.2.getD j 0 = 0) →
      (bitmap_from_data data).1 = BITMAP_SIZE - 1 ∧
        (bitmap_from_data data).2.1 = 0) := by
  have e2 : (bitmap_from_data data).2.2 = maskedBitmap data := rfl
  have e0 : (bitmap_from_data data).1 = (scanMinMax (maskedBitmap data)).1 := rfl
  have e1 : (bitmap_from_data data).2.1 = (scanMinMax (maskedBitmap data)).2 := rfl
  obtain ⟨s1, s2⟩ := scanMinMax_spec (maskedBitmap data)
  rw [maskedBitmap_length] at s1 s2
  refine ⟨?_, ?_, ?_, ?_, ?_⟩
  · intro i h1 hi
    rw [e2, bitTestB_maskedBitmap data i h1 hi, bitTestB_rawBitmap data hd i hi]
  · rw [e2]; exact bitTestB_maskedBitmap_zero data
  · rw [e2]; exact maskedBitmap_length data
  · rw [e2, e0, e1]; exact s1
  · rw [e2, e0, e1]; exact s2

/-- Witness for `bitmap_from_data_spec` at `data = [5, 1000]`. -/
theorem bitmap_from_data_spec_witness :
    (∀ v ∈ [5, 1000], v < U16_RANGE) ∧
    ((∀ i, 1 ≤ i → i < U16_RANGE →
      (bitTestB (bitmap_from_data [5, 1000]).2.2 i = true ↔ i ∈ [5, 1000])) ∧
    bitTestB (bitmap_from_data [5, 1000]).2.2 0 = false ∧
    (bitmap_from_data [5, 1000]).2.2.length = BITMAP_SIZE ∧
    ((∃ j, j < BITMAP_SIZE ∧ (bitmap_from_data [5, 1000]).2.2.getD j 0 ≠ 0) →
      (bitmap_from_data [5, 1000]).2.2.getD (bitmap_from_data [5, 1000]).1 0 ≠ 0 ∧
        (bitmap_from_data [5, 1000]).2.2.getD (bitmap_from_data [5, 1000]).2.1 0 ≠ 0 ∧
        ∀ j, j < BITMAP_SIZE → (bitmap_from_data [5, 1000]).2.2.getD j 0 ≠ 0 →
          (bitmap_from_data [5, 1000]).1 ≤ j ∧ j ≤ (bitmap_from_data [5, 1000]).2.1) ∧
    ((∀ j, j < BITMAP_SIZE → (bitmap_from_data [5, 1000]).2.2.getD j 0 = 0) →
      (bitmap_from_data [5, 1000]).1 = BITMAP_SIZE - 1 ∧
        (bitmap_from_data [5, 1000]).2.1 = 0)) :=
  ⟨by decide, bitmap_from_data_spec [5, 1000] (by decide)⟩

/-! ### Lookup-table lemmas -/

theorem fwdAux_fst_length (bm : List Nat) :
    ∀ (l : List Nat) (c : Nat), ((fwdAux bm c l).1).length = l.length := by
  intro l
  induction l with
  | nil => intro c; rfl
  | cons i rest ih =>
    intro c
    simp only [fwdAux]
    split <;> simp [ih]

theorem fwdAux_snd (bm : List Nat) :
    ∀ (l : List Nat) (c : Nat),
      (fwdAux bm c l).2 = c + l.countP (presentB bm) := by
  intro l
  induction l with
  | nil => intro c; simp [fwdAux]
  | cons i rest ih =>
    intro c
    by_cases hp : presentB bm i
    · rw [show fwdAux bm c (i :: rest) =
          (c :: (fwdAux bm (c + 1) rest).1, (fwdAux bm (c + 1) rest).2) from by
        simp [fwdAux, hp]]
      rw [List.countP_cons_of_pos _ _ hp, ih (c + 1)]
      omega
    · rw [show fwdAux bm c (i :: rest) =
          (0 :: (fwdAux bm c rest).1, (fwdAux bm c rest).2) from by
        simp [fwdAux, hp]]
      rw [List.countP_cons_of_neg _ _ hp, ih c]

/-- Entry `s + k` of the forward table built from rank `c` over the index
window `range' s n` is the running rank if present, `0` otherwise. -/
theorem fwdAux_entry (bm : List Nat) :
    ∀ (n s c k : Nat), k < n →
      ((fwdAux bm c (List.range' s n)).1).getD k 0 =
        if presentB bm (s + k) then c + (List.range' s k).countP (presentB bm)
        else 0 := by
  intro n
  induction n with
  | zero => intro s c k hk; omega
  | succ n ih =>
    intro s c k hk
    rw [List.range'_succ]
    by_cases hp : presentB bm s
    · rw [show fwdAux bm c (s :: List.range' (s + 1) n) =
          (c :: (fwdAux bm (c + 1) (List.range' (s + 1) n)).1,
            (fwdAux bm (c + 1) (List.range' (s + 1) n)).2) from by
        simp [fwdAux, hp]]
      match k with
      | 0 => simp [hp]
      | k' + 1 =>
        rw [List.getD_cons_succ, ih (s + 1) (c + 1) k' (by omega)]
        have hs : s + 1 + k' = s + (k' + 1) := by omega
        rw [hs, List.range'_succ, List.countP_cons_of_pos _ _ hp]
        split
        · omega
        · rfl
    · rw [show fwdAux bm c (s :: List.range' (s + 1) n) =
          (0 :: (fwdAux bm c (List.range' (s + 1) n)).1,
            (fwdAux bm c (List.range' (s + 1) n)).2) from by
        simp [fwdAux, hp]]
      match k with
      | 0 => simp [hp]
      | k' + 1 =>
        rw [List.getD_cons_succ, ih (s + 1) c k' (by omega)]
        have hs : s + 1 + k' = s + (k' + 1) := by omega
        rw [hs, List.range'_succ, List.countP_cons_of_neg _ _ hp]

/-- The element of `(range' s n).filter p` at position
`countP p (range' s (i - s))` is `i`, for any `i` in the window
satisfying `p`. -/
theorem filter_range'_getD (p : Nat → Bool) :
    ∀ (n s i : Nat), s ≤ i → i < s + n → p i = true →
      ((List.range' s n).filter p).getD
        ((List.range' s (i - s)).countP p) 0 = i := by
  intro n
  induction n with
  | zero => intro s i h1 h2; omega
  | succ n ih =>
    intro s i h1 h2 hp
    rw [List.range'_succ, List.filter_cons]
    rcases eq_or_lt_of_le h1 with rfl | hlt
    · rw [if_pos hp]
      simp [show s - s = 0 from by omega]
    · have hi : i - s = (i - (s + 1)) + 1 := by omega
      by_cases hps : p s
      · rw [if_pos hps, hi, List.range'_succ, List.countP_cons, if_pos hps,
          List.getD_cons_succ]
        exact ih (s + 1) i (by omega) (by omega) hp
      · rw [if_neg hps, hi, List.range'_succ, List.countP_cons, if_neg hps,
          Nat.add_zero]
        exact ih (s + 1) i (by omega) (by omega) hp

/-- The rank of a present value `v < N` is strictly below the total count
of present values. -/
theorem countP_range_lt (p : Nat → Bool) (v N : Nat) (hv : v < N)
    (hp : p v = true) :
    (List.range v).countP p < (List.range N).countP p := by
  have h1 : (List.range (v + 1)).countP p = (List.range v).countP p + 1 := by
    rw [List.range_succ, List.countP_append]
    simp [hp]
  have h2 : (List.range (v + 1)).countP p ≤ (List.range N).countP p :=
    (List.range_sublist.mpr hv).countP_le p
  omega

theorem getD_append_left {l r : List Nat} {n : Nat} (h : n < l.length) :
    (l ++ r).getD n 0 = l.getD n 0 := by
  simp [List.getD_eq_getElem?_getD, List.getElem?_append_left h]

/-- The reverse table undoes the forward table on value 0 and on every
value whose bitmap bit is set (the shared engine behind the lookup-inverse
claim and the round-trip proof). -/
theorem revGetD_fwdGetD (bm : List Nat) (v : Nat) (hv : v < U16_RANGE)
    (hp : v = 0 ∨ bitTestB bm v = true) :
    (reverse_lookup_table_from_bitmap bm).1.getD
      ((forward_lookup_table_from_bitmap bm).2.getD v 0) 0 = v := by
  have hpres : presentB bm v = true := by
    unfold presentB
    rcases hp with rfl | hp
    · simp
    · simp [hp]
  have hfwd : (forward_lookup_table_from_bitmap bm).2.getD v 0 =
      (List.range' 0 v).countP (presentB bm) := by
    unfold forward_lookup_table_from_bitmap
    rw [List.range_eq_range', fwdAux_entry bm U16_RANGE 0 0 v hv]
    rw [show (0 + v) = v from by omega, if_pos hpres]
    omega
  rw [hfwd]
  have hcnt : (List.range' 0 v).countP (presentB bm) <
      ((List.range U16_RANGE).filter (presentB bm)).length := by
    rw [← List.countP_eq_length_filter, ← List.range_eq_range' v]
    exact countP_range_lt (presentB bm) v U16_RANGE hv hpres
  unfold reverse_lookup_table_from_bitmap
  rw [getD_append_left hcnt]
  have hnth := filter_range'_getD (presentB bm) U16_RANGE 0 v (Nat.zero_le v)
    (by omega) hpres
  rw [List.range_eq_range']
  simpa using hnth

/-- C6: the reverse lookup table is a left inverse of the forward lookup
table on value 0 and on every value whose bitmap bit is set. -/
theorem lookup_tables_inverse (bm : List Nat) (hbm : bm.length = BITMAP_SIZE)
    (v : Nat) (hv : v < U16_RANGE) (hp : v = 0 ∨ bitTestB bm v = true) :
    (reverse_lookup_table_from_bitmap bm).1.getD
      ((forward_lookup_table_from_bitmap bm).2.getD v 0) 0 = v :=
  revGetD_fwdGetD bm v hv hp

/-- Witness for `lookup_tables_inverse` on the all-zero bitmap at `v = 0`. -/
theorem lookup_tables_inverse_witness :
    (List.replicate BITMAP_SIZE (0:Nat)).length = BITMAP_SIZE ∧
    (reverse_lookup_table_from_bitmap (List.replicate BITMAP_SIZE 0)).1.getD
      ((forward_lookup_table_from_bitmap
        (List.replicate BITMAP_SIZE 0)).2.getD 0 0) 0 = 0 :=
  ⟨List.length_replicate .., lookup_tables_inverse _ (List.length_replicate ..)
    0 (by norm_num [U16_RANGE]) (Or.inl rfl)⟩

/-- The number of values the table builders treat as present: the values
with a set bitmap bit, plus value 0. -/
def presentCount (bm : List Nat) : Nat :=
  ((Finset.range U16_RANGE).filter fun v => v = 0 ∨ bitTestB bm v = true).card

theorem card_filter_range (p : Nat → Prop) [DecidablePred p] : ∀ n : Nat,
    ((Finset.range n).filter p).card =
      (List.range n).countP fun v => decide (p v) := by
  intro n
  induction n with
  | zero => simp
  | succ n ih =>
    rw [Finset.range_succ, Finset.filter_insert, List.range_succ,
      List.countP_append]
    by_cases h : p n
    · rw [if_pos h, Finset.card_insert_of_not_mem (by
        simp [Finset.mem_filter, Finset.not_mem_range_self])]
      simp [ih, h]
    · rw [if_neg h]
      simp [ih, h]

theorem presentCount_eq_countP (bm : List Nat) :
    presentCount bm = (List.range U16_RANGE).countP (presentB bm) := by
  unfold presentCount
  rw [card_filter_range]
  apply List.countP_congr
  intro v _
  unfold presentB
  by_cases h0 : v = 0
  · subst h0
    simp
  · rcases hb : bitTestB bm v with _ | _ <;> simp [h0, hb]

/-- C7: both lookup-table builders return
`max_value = presentCount - 1 ≤ 65535`. -/
theorem max_value_spec (bm : List Nat) (hbm : bm.length = BITMAP_SIZE) :
    (forward_lookup_table_from_bitmap bm).1 = presentCount bm - 1 ∧
    (reverse_lookup_table_from_bitmap bm).2 = presentCount bm - 1 ∧
    (forward_lookup_table_from_bitmap bm).1 ≤ 65535 ∧
    (reverse_lookup_table_from_bitmap bm).2 ≤ 65535 := by
  have hcount : (fwdAux bm 0 (List.range U16_RANGE)).2 =
      (List.range U16_RANGE).countP (presentB bm) := by
    rw [fwdAux_snd]
    omega
  have hrevlen : ((List.range U16_RANGE).filter (presentB bm)).length =
      (List.range U16_RANGE).countP (presentB bm) := by
    rw [List.countP_eq_length_filter]
  have hle : (List.range U16_RANGE).countP (presentB bm) ≤ 65536 := by
    have h := List.countP_le_length (p := presentB bm)
      (l := List.range U16_RANGE)
    rw [List.length_range] at h
    exact h
  rw [presentCount_eq_countP]
  unfold forward_lookup_table_from_bitmap reverse_lookup_table_from_bitmap
  refine ⟨by rw [hcount], by rw [hrevlen], ?_, ?_⟩
  · rw [hcount]
    omega
  · rw [hrevlen]
    omega

/-- Witness for `max_value_spec` on the all-zero bitmap. -/
theorem max_value_spec_witness :
    (List.replicate BITMAP_SIZE (0:Nat)).length = BITMAP_SIZE ∧
    ((forward_lookup_table_from_bitmap (List.replicate BITMAP_SIZE 0)).1 =
        presentCount (List.replicate BITMAP_SIZE 0) - 1 ∧
      (reverse_lookup_table_from_bitmap (List.replicate BITMAP_SIZE 0)).2 =
        presentCount (List.replicate BITMAP_SIZE 0) - 1 ∧
      (forward_lookup_table_from_bitmap (List.replicate BITMAP_SIZE 0)).1 ≤ 65535 ∧
      (reverse_lookup_table_from_bitmap (List.replicate BITMAP_SIZE 0)).2 ≤ 65535) :=
  ⟨List.length_replicate .., max_value_spec _ (List.length_replicate ..)⟩

/-- C10: both lookup tables have length exactly 65536, so indexing them
with any `u16` value is in bounds (`getElem?` succeeds and the `getD`
fallback is never taken). -/
theorem lookup_table_lengths (bm : List Nat) (hbm : bm.length = BITMAP_SIZE) :
    (reverse_lookup_table_from_bitmap bm).1.length = U16_RANGE ∧
    (forward_lookup_table_from_bitmap bm).2.length = U16_RANGE ∧
    ∀ v, v < U16_RANGE →
      ((reverse_lookup_table_from_bitmap bm).1[v]?).isSome = true ∧
      ((forward_lookup_table_from_bitmap bm).2[v]?).isSome = true := by
  have hrev : (reverse_lookup_table_from_bitmap bm).1.length = U16_RANGE := by
    unfold reverse_lookup_table_from_bitmap
    rw [List.length_append, List.length_replicate]
    have h := List.length_filter_le (presentB bm) (List.range U16_RANGE)
    rw [List.length_range] at h
    omega
  have hfwd : (forward_lookup_table_from_bitmap bm).2.length = U16_RANGE := by
    unfold forward_lookup_table_from_bitmap
    rw [fwdAux_fst_length, List.length_range]
  refine ⟨hrev, hfwd, fun v hv => ⟨?_, ?_⟩⟩
  · rw [List.getElem?_eq_getElem (by omega)]
    rfl
  · rw [List.getElem?_eq_getElem (by omega)]
    rfl

/-- Witness for `lookup_table_lengths` on the all-zero bitmap. -/
theorem lookup_table_lengths_witness :
    (List.replicate BITMAP_SIZE (0:Nat)).length = BITMAP_SIZE ∧
    ((reverse_lookup_table_from_bitmap (List.replicate BITMAP_SIZE 0)).1.length
        = U16_RANGE ∧
      (forward_lookup_table_from_bitmap (List.replicate BITMAP_SIZE 0)).2.length
        = U16_RANGE ∧
      ∀ v, v < U16_RANGE →
        ((reverse_lookup_table_from_bitmap (List.replicate BITMAP_SIZE 0)).1[v]?).isSome = true ∧
        ((forward_lookup_table_from_bitmap (List.replicate BITMAP_SIZE 0)).2[v]?).isSome = true) :=
  ⟨List.length_replicate .., lookup_table_lengths _ (List.length_replicate ..)⟩

/-! ## The block compressor / decompressor

The remaining source functions are `compress_bytes` and
`decompress_bytes`.  Everything they touch that is not part of the source
file (the `io::Data` little-endian readers/writers, the channel metadata,
and the `huffman` / `wavelet` collaborator modules) is modelled from the
specification; each such definition carries a `Modelled from the spec`
comment.  Byte order: the source has a `Native` fast path used only for
all-F16 channel lists; per the specification it is byte-identical to the
`Independent` (little-endian) path on little-endian hosts, which is how
the model renders both paths. -/

/-- Modelled from the spec: `u16::write` — two little-endian bytes. -/
def toLE16 (v : Nat) : List Nat := [v % 256, v / 256 % 256]

/-- Modelled from the spec: the `i32` write of the compressed length
(`compressed.len() as i32`): the four little-endian bytes of the value
modulo `2^32`. -/
def toLE32 (n : Nat) : List Nat :=
  [n % 256, n / 256 % 256, n / 65536 % 256, n / 16777216 % 256]

/-- Modelled from the spec: `u16::read` — consume two little-endian
bytes; `none` is the failed read that the source `unwrap`s. -/
def readU16 : List Nat → Option (Nat × List Nat)
  | b0 :: b1 :: rest => some (b0 + 256 * b1, rest)
  | _ => none

/-- The signed interpretation of a 32-bit little-endian word. -/
def toSigned32 (n : Nat) : Int :=
  if n < 2 ^ 31 then (n : Int) else (n : Int) - 2 ^ 32

/-- Modelled from the spec: `i32::read` — consume four little-endian
bytes, interpreted signed. -/
def readI32 : List Nat → Option (Int × List Nat)
  | b0 :: b1 :: b2 :: b3 :: rest =>
    some (toSigned32 (b0 + 256 * b1 + 65536 * b2 + 16777216 * b3), rest)
  | _ => none

/-- Modelled from the spec: `u8::read_slice` of exactly `n` bytes. -/
def readBytes (n : Nat) (l : List Nat) : Option (List Nat × List Nat) :=
  if n ≤ l.length then some (l.take n, l.drop n) else none

/-- Modelled from the spec: `u16::read_slice` — pair up little-endian
bytes into `u16` lanes. -/
def bytesToU16s : List Nat → List Nat
  | [] => []
  | [_] => []
  | b0 :: b1 :: rest => (b0 + 256 * b1) :: bytesToU16s rest

/-- Modelled from the spec: `u16::write_slice` — write `u16` lanes as
little-endian bytes. -/
def u16sToLEBytes (l : List Nat) : List Nat := l.flatMap toLE16

/-- Modelled from the spec: a channel's sample type. -/
inductive SampleType where
  | f16
  | f32
  | u32
deriving DecidableEq

/-- Modelled from the spec: the channel metadata the codec consumes — an
ordered list of `(sample_type, y_sampling)` pairs. -/
structure Channel where
  sampleType : SampleType
  ySampling : Nat

/-- Modelled from the spec:
`channel.sample_type.bytes_per_sample() / SampleType::F16.bytes_per_sample()`
— 1 for F16, 2 for F32/U32. -/
def samplesPerPixel (c : Channel) : Nat :=
  match c.sampleType with
  | .f16 => 1
  | .f32 => 2
  | .u32 => 2

/-- Modelled from the spec: an axis-aligned rectangle with signed
position and unsigned size (`x_sampling = 1` is a precondition of the
spec, so only `sizeY` is subsampled). -/
structure IntRect where
  posX : Int
  posY : Int
  sizeX : Nat
  sizeY : Nat

/-- Modelled from the spec: `subsampled_resolution` —
`(w, h / y_sampling)`. -/
def subsampledResolution (c : Channel) (r : IntRect) : Nat × Nat :=
  (r.sizeX, r.sizeY / c.ySampling)

/-- The source's `ChannelData`: per-channel codec state. -/
structure ChannelData where
  tmp_start_index : Nat
  tmp_end_index : Nat
  resolution : Nat × Nat
  y_sampling : Nat
  samples_per_pixel : Nat
deriving DecidableEq

/-- The channel-segment construction loop shared by `compress_bytes` and
`decompress_bytes` (both build identical `ChannelData` vectors). -/
def channel_data_aux (rect : IntRect) : Nat → List Channel → List ChannelData
  | _, [] => []
  | start, c :: cs =>
    { tmp_start_index := start
      tmp_end_index := start
      resolution := subsampledResolution c rect
      y_sampling := c.ySampling
      samples_per_pixel := samplesPerPixel c } ::
      channel_data_aux rect
        (start + (subsampledResolution c rect).1 *
          (subsampledResolution c rect).2 * samplesPerPixel c) cs

def channel_data (channels : List Channel) (rect : IntRect) :
    List ChannelData :=
  channel_data_aux rect 0 channels

/-- `u16s_per_line` of a channel. -/
def lineSize (c : ChannelData) : Nat := c.resolution.1 * c.samples_per_pixel

/-- The number of `u16` lanes of a channel's whole segment. -/
def segSize (c : ChannelData) : Nat :=
  c.resolution.1 * c.resolution.2 * c.samples_per_pixel

/-- The static upper bound of a channel's segment. -/
def segBound (c : ChannelData) : Nat := c.tmp_start_index + segSize c

/-- The subsampling predicate of the row loops:
`mod_p(y, channel.y_sampling as i32) == 0`, computed as the source does —
the `usize → i32` cast truncates to the low 32 bits (`wrap32`) and the
arithmetic wraps (`mod_p32`, Rust release-mode semantics). -/
def admitsB (y : Int) (s : Nat) : Bool :=
  decide (mod_p32 y (wrap32 (s : Int)) = 0)

/-- The row indices `position.y() .. end().y()` of the rectangle. -/
def rowIndices (rect : IntRect) : List Int :=
  (List.range rect.sizeY).map fun i : Nat => rect.posY + (i : Int)

/-- Splice `chunk` into `tmp` at offset `e` (an in-place slice write). -/
def writeChunk (tmp : List Nat) (e : Nat) (chunk : List Nat) : List Nat :=
  tmp.take e ++ chunk ++ tmp.drop (e + chunk.length)

/-- The sub-slice of `l` of length `n` starting at `a`. -/
def sliceN (l : List Nat) (a n : Nat) : List Nat := (l.drop a).take n

/-- One row of the compress-side interleaver: for each channel admitted by
the subsampling predicate, read the next `u16s_per_line` lanes from the
stream into the channel's segment at `tmp_end_index` and advance it.
`none` models a Rust panic (failed `read_slice` / out-of-bounds slice). -/
def scatterChans (y : Int) :
    List ChannelData → List Nat → List Nat →
      Option (List ChannelData × List Nat × List Nat)
  | [], tmp, stream => some ([], tmp, stream)
  | c :: cs, tmp, stream =>
    if admitsB y c.y_sampling then
      if lineSize c ≤ stream.length ∧
          c.tmp_end_index + lineSize c ≤ tmp.length then
        match scatterChans y cs
            (writeChunk tmp c.tmp_end_index (stream.take (lineSize c)))
            (stream.drop (lineSize c)) with
        | some (cs', tmp', s') =>
          some ({ c with tmp_end_index := c.tmp_end_index + lineSize c } :: cs',
            tmp', s')
        | none => none
      else none
    else
      match scatterChans y cs tmp stream with
      | some (cs', tmp', s') => some (c :: cs', tmp', s')
      | none => none

/-- The full row loop of the compress-side interleaver. -/
def scatterRows :
    List Int → List ChannelData → List Nat → List Nat →
      Option (List ChannelData × List Nat × List Nat)
  | [], cs, tmp, stream => some (cs, tmp, stream)
  | y :: ys, cs, tmp, stream =>
    match scatterChans y cs tmp stream with
    | some (cs', tmp', s') => scatterRows ys cs' tmp' s'
    | none => none

/-- One row of the decompress-side de-interleaver: for each admitted
channel, append the segment slice at `tmp_end_index` to the output and
advance the index. -/
def gatherChans (y : Int) :
    List ChannelData → List Nat → Option (List ChannelData × List Nat)
  | [], _ => some ([], [])
  | c :: cs, tmp =>
    if admitsB y c.y_sampling then
      if c.tmp_end_index + lineSize c ≤ tmp.length then
        match gatherChans y cs tmp with
        | some (cs', out) =>
          some ({ c with tmp_end_index := c.tmp_end_index + lineSize c } :: cs',
            sliceN tmp c.tmp_end_index (lineSize c) ++ out)
        | none => none
      else none
    else
      match gatherChans y cs tmp with
      | some (cs', out) => some (c :: cs', out)
      | none => none

/-- The full row loop of the decompress-side de-interleaver. -/
def gatherRows :
    List Int → List ChannelData → List Nat →
      Option (List ChannelData × List Nat)
  | [], cs, _ => some (cs, [])
  | y :: ys, cs, tmp =>
    match gatherChans y cs tmp with
    | some (cs', out1) =>
      match gatherRows ys cs' tmp with
      | some (cs'', out2) => some (cs'', out1 ++ out2)
      | none => none
    | none => none

/-- Modelled from the spec: `wavelet::encode` is specified only as a
bijection on `[0, max_value]^(w·h)` per lane with `decode` its exact
inverse (§4.3); it is modelled as the identity transform, which satisfies
that contract (the strided per-lane views of an identity transform are
again identities, so the `offset` loop over the lanes collapses). -/
def wavelet_encode (data : List Nat) (_resolution : Nat × Nat)
    (_stride : Nat × Nat) (_max_value : Nat) : Except Unit (List Nat) :=
  .ok data

/-- Modelled from the spec: `wavelet::decode`, the exact inverse of
`wavelet_encode`; under the identity model it is again the identity. -/
def wavelet_decode (data : List Nat) (_resolution : Nat × Nat)
    (_stride : Nat × Nat) (_max_value : Nat) : Except Unit (List Nat) :=
  .ok data

/-- Splice an encoded segment back into the working buffer. -/
def spliceBack (tmp : List Nat) (a b : Nat) (s : List Nat) : List Nat :=
  tmp.take a ++ s ++ tmp.drop b

/-- The per-channel wavelet-encode loop of `compress_bytes`: each channel
segment `tmp[tmp_start_index .. tmp_end_index]` is transformed in place. -/
def waveletEncLoop (mv : Nat) :
    List ChannelData → List Nat → Except Unit (List Nat)
  | [], tmp => .ok tmp
  | c :: cs, tmp =>
    match wavelet_encode
        (sliceN tmp c.tmp_start_index (c.tmp_end_index - c.tmp_start_index))
        c.resolution (c.samples_per_pixel, c.resolution.1 * c.samples_per_pixel)
        mv with
    | .ok s =>
      waveletEncLoop mv cs (spliceBack tmp c.tmp_start_index c.tmp_end_index s)
    | .error e => .error e

/-- The per-channel wavelet-decode loop of `decompress_bytes`: each
channel segment `tmp[tmp_start_index .. tmp_start_index + u16_count]` is
transformed in place. -/
def waveletDecLoop (mv : Nat) :
    List ChannelData → List Nat → Except Unit (List Nat)
  | [], tmp => .ok tmp
  | c :: cs, tmp =>
    match wavelet_decode (sliceN tmp c.tmp_start_index (segSize c))
        c.resolution (c.samples_per_pixel, c.resolution.1 * c.samples_per_pixel)
        mv with
    | .ok s =>
      waveletDecLoop mv cs
        (spliceBack tmp c.tmp_start_index (c.tmp_start_index + segSize c) s)
    | .error e => .error e

/-- Modelled from the spec: `huffman::compress` is specified only as a
self-delimiting entropy coder for a `u16` sequence with an exact
round-trip (§4.4); it is modelled as the plain 2-byte little-endian
encoding, which satisfies that contract. -/
def huffman_compress (data : List Nat) : Except Unit (List Nat) :=
  .ok (u16sToLEBytes data)

/-- Modelled from the spec: `huffman::decompress` writes exactly
`output.len()` values from a valid stream and rejects malformed input;
under the 2-byte model a stream is valid iff it holds exactly
`2 * output.len()` bytes. -/
def huffman_decompress (input : List Nat) (outLen : Nat) :
    Option (List Nat) :=
  if input.length = 2 * outLen then some (bytesToU16s input) else none

/-- The result of a codec call: `ok` bytes, the single validation error
(`Error::invalid("compression data")`), or `crash` — a Rust panic
(`unwrap` of a failed read or collaborator, out-of-bounds slice, failed
`expect`). -/
inductive CResult where
  | ok (bytes : List Nat)
  | invalid
  | crash
deriving DecidableEq

/-- Total number of `u16` lanes of all channel segments. -/
def segTotal (channels : List Channel) (rect : IntRect) : Nat :=
  ((channel_data channels rect).map segSize).sum

/-- `compress_bytes` from the source: interleave the pixel bytes into the
working buffer, build the bitmap and forward table, remap, emit the
header, wavelet-encode each channel, Huffman-compress, and emit length
plus payload. -/
def compress_bytes (channels : List Channel) (bytes : List Nat)
    (rect : IntRect) : CResult :=
  if bytes = [] then .ok [] else
  match scatterRows (rowIndices rect) (channel_data channels rect)
      (List.replicate (bytes.length / 2) 0) (bytesToU16s bytes) with
  | none => .crash
  | some (cds, tmp1, _) =>
    let mn := (bitmap_from_data tmp1).1
    let mx := (bitmap_from_data tmp1).2.1
    let bm := (bitmap_from_data tmp1).2.2
    let mv := (forward_lookup_table_from_bitmap bm).1
    let table := (forward_lookup_table_from_bitmap bm).2
    let tmp2 := apply_lookup_table tmp1 table
    let header := toLE16 mn ++ toLE16 mx ++
      (if mn ≤ mx then sliceN bm mn (mx - mn + 1) else [])
    match waveletEncLoop mv cds tmp2 with
    | .error _ => .invalid
    | .ok tmp3 =>
      match huffman_compress tmp3 with
      | .error _ => .invalid
      | .ok compressed =>
        .ok (header ++ toLE32 compressed.length ++ compressed)

/-- `decompress_bytes` from the source: parse and validate the header,
rebuild the bitmap and reverse table, Huffman-decompress (note: the
source `unwrap`s this call, so a Huffman failure is a panic, `crash`),
wavelet-decode each channel, remap through the reverse table, and
de-interleave. -/
def decompress_bytes (channels : List Channel) (compressed : List Nat)
    (rect : IntRect) (expected_byte_size : Nat) : CResult :=
  if compressed = [] then .ok [] else
  match readU16 compressed with
  | none => .crash
  | some (mn, r1) =>
  match readU16 r1 with
  | none => .crash
  | some (mx, r2) =>
  if BITMAP_SIZE ≤ mx then .invalid else
  match (if mn ≤ mx then readBytes (mx - mn + 1) r2 else some ([], r2)) with
  | none => .crash
  | some (slice, r3) =>
  let bitmap := writeChunk (List.replicate BITMAP_SIZE 0) mn slice
  let revt := (reverse_lookup_table_from_bitmap bitmap).1
  let mv := (reverse_lookup_table_from_bitmap bitmap).2
  match readI32 r3 with
  | none => .crash
  | some (len, r4) =>
  if len < 0 ∨ (r4.length : Int) < len then .invalid else
  match huffman_decompress (r4.take len.toNat) (expected_byte_size / 2) with
  | none => .crash
  | some tmp1 =>
  match waveletDecLoop mv (channel_data channels rect) tmp1 with
  | .error _ => .invalid
  | .ok tmp2 =>
  match gatherRows (rowIndices rect) (channel_data channels rect)
      (apply_lookup_table tmp2 revt) with
  | none => .crash
  | some (_, out) => .ok (u16sToLEBytes out)

/-- The validity precondition of a codec call, matching the source's own
(debug-asserted) requirements and the i32 domain of its row-admission
arithmetic: every channel's `y_sampling` is at least 1, divides both the
rectangle's vertical position and height (so that the channel segments
tile the working buffer exactly), is a positive i32 that the
`usize → i32` cast preserves, and keeps the intermediate
`y_sampling - 1 - y` of `div_p` in i32 range for every row; the row
indices themselves are i32; the pixel buffer length matches the channel
layout, is below `2^31` (so the Huffman length survives the `as i32`
cast), and the buffer consists of bytes. -/
def Valid (channels : List Channel) (bytes : List Nat) (rect : IntRect) :
    Prop :=
  (∀ c ∈ channels, 1 ≤ c.ySampling ∧ (c.ySampling : Int) ∣ rect.posY ∧
    c.ySampling ∣ rect.sizeY ∧ c.ySampling < 2 ^ 31 ∧
    (c.ySampling : Int) - 1 - rect.posY < 2 ^ 31) ∧
  (-(2 ^ 31) ≤ rect.posY ∧ rect.posY + (rect.sizeY : Int) ≤ 2 ^ 31) ∧
  bytes.length = 2 * segTotal channels rect ∧
  bytes.length < 2 ^ 31 ∧
  (∀ b ∈ bytes, b < 256)

/-! ### Splice and slice lemmas -/

theorem getD_append_right {l r : List Nat} {n : Nat} (h : l.length ≤ n) :
    (l ++ r).getD n 0 = r.getD (n - l.length) 0 := by
  simp [List.getD_eq_getElem?_getD, List.getElem?_append_right h]

theorem writeChunk_length {tmp chunk : List Nat} {e : Nat}
    (h : e + chunk.length ≤ tmp.length) :
    (writeChunk tmp e chunk).length = tmp.length := by
  unfold writeChunk
  rw [List.length_append, List.length_append, List.length_take,
    List.length_drop]
  omega

theorem writeChunk_getD_lt {tmp chunk : List Nat} {e j : Nat} (hj : j < e)
    (he : e ≤ tmp.length) :
    (writeChunk tmp e chunk).getD j 0 = tmp.getD j 0 := by
  unfold writeChunk
  rw [List.append_assoc, getD_append_left (by rw [List.length_take]; omega)]
  simp [List.getD_eq_getElem?_getD, List.getElem?_take_of_lt hj]

theorem writeChunk_getD_mid {tmp chunk : List Nat} {e j : Nat} (h1 : e ≤ j)
    (h2 : j < e + chunk.length) (he : e ≤ tmp.length) :
    (writeChunk tmp e chunk).getD j 0 = chunk.getD (j - e) 0 := by
  unfold writeChunk
  rw [List.append_assoc, getD_append_right (by rw [List.length_take]; omega),
    List.length_take]
  rw [getD_append_left (by omega)]
  congr 1
  omega

theorem writeChunk_getD_ge {tmp chunk : List Nat} {e j : Nat}
    (hj : e + chunk.length ≤ j) (he : e ≤ tmp.length) :
    (writeChunk tmp e chunk).getD j 0 = tmp.getD j 0 := by
  unfold writeChunk
  rw [List.append_assoc, getD_append_right (by rw [List.length_take]; omega),
    List.length_take, getD_append_right (by omega)]
  simp only [List.getD_eq_getElem?_getD, List.getElem?_drop]
  congr 2
  omega

theorem sliceN_length {l : List Nat} {a n : Nat} (h : a + n ≤ l.length) :
    (sliceN l a n).length = n := by
  unfold sliceN
  rw [List.length_take, List.length_drop]
  omega

theorem sliceN_getElem? {l : List Nat} {a n k : Nat} (hk : k < n) :
    (sliceN l a n)[k]? = l[a + k]? := by
  unfold sliceN
  rw [List.getElem?_take_of_lt hk, List.getElem?_drop]

theorem sliceN_getD {l : List Nat} {a n k : Nat} (hk : k < n) :
    (sliceN l a n).getD k 0 = l.getD (a + k) 0 := by
  simp [List.getD_eq_getElem?_getD, sliceN_getElem? hk]

theorem ext_getD {l₁ l₂ : List Nat} (hlen : l₁.length = l₂.length)
    (h : ∀ j, j < l₁.length → l₁.getD j 0 = l₂.getD j 0) : l₁ = l₂ := by
  apply List.ext_getElem?
  intro i
  by_cases hi : i < l₁.length
  · have hv := h i hi
    rw [List.getD_eq_getElem?_getD, List.getD_eq_getElem?_getD,
      List.getElem?_eq_getElem hi, List.getElem?_eq_getElem (by omega)] at hv
    rw [List.getElem?_eq_getElem hi, List.getElem?_eq_getElem (by omega)]
    simpa using hv
  · rw [List.getElem?_eq_none (by omega), List.getElem?_eq_none (by omega)]

theorem sliceN_congr {T₁ T₂ : List Nat} {a n : Nat} (h₁ : a + n ≤ T₁.length)
    (h₂ : a + n ≤ T₂.length)
    (h : ∀ j, a ≤ j → j < a + n → T₁.getD j 0 = T₂.getD j 0) :
    sliceN T₁ a n = sliceN T₂ a n := by
  apply ext_getD
  · rw [sliceN_length h₁, sliceN_length h₂]
  · intro j hj
    rw [sliceN_length h₁] at hj
    rw [sliceN_getD hj, sliceN_getD hj]
    exact h (a + j) (by omega) (by omega)

theorem writeChunk_slice {tmp chunk : List Nat} {e : Nat}
    (h : e + chunk.length ≤ tmp.length) :
    sliceN (writeChunk tmp e chunk) e chunk.length = chunk := by
  unfold sliceN writeChunk
  rw [List.append_assoc,
    List.drop_left' (by rw [List.length_take]; omega),
    List.take_left' rfl]

theorem spliceBack_self {tmp : List Nat} {a b : Nat} (h : a ≤ b) :
    spliceBack tmp a b (sliceN tmp a (b - a)) = tmp := by
  unfold spliceBack sliceN
  rw [show tmp.drop b = (tmp.drop a).drop (b - a) from by
      rw [List.drop_drop]; congr 1; omega,
    List.append_assoc, List.take_append_drop, List.take_append_drop]

/-! ### Byte/word conversion lemmas -/

theorem bytesToU16s_length : ∀ l : List Nat,
    (bytesToU16s l).length = l.length / 2 := by
  intro l
  induction l using bytesToU16s.induct with
  | case1 => rfl
  | case2 => simp [bytesToU16s]
  | case3 b0 b1 rest ih =>
    show (bytesToU16s rest).length + 1 = (rest.length + 2) / 2
    rw [ih]
    omega

theorem bytesToU16s_bound : ∀ l : List Nat, (∀ b ∈ l, b < 256) →
    ∀ v ∈ bytesToU16s l, v < U16_RANGE := by
  intro l
  induction l using bytesToU16s.induct with
  | case1 => intro _ v hv; cases hv
  | case2 => intro _ v hv; cases hv
  | case3 b0 b1 rest ih =>
    intro hb v hv
    rcases List.mem_cons.mp hv with rfl | hv
    · have h0 := hb b0 (by simp)
      have h1 := hb b1 (by simp)
      unfold U16_RANGE
      omega
    · exact ih (fun b hbm => hb b (by simp [hbm])) v hv

theorem u16sToLEBytes_length (l : List Nat) :
    (u16sToLEBytes l).length = 2 * l.length := by
  induction l with
  | nil => rfl
  | cons v rest ih =>
    unfold u16sToLEBytes at ih ⊢
    rw [List.flatMap_cons, List.length_append, ih,
      show (toLE16 v).length = 2 from rfl, List.length_cons]
    omega

theorem bytesToU16s_u16sToLEBytes (l : List Nat)
    (h : ∀ v ∈ l, v < U16_RANGE) : bytesToU16s (u16sToLEBytes l) = l := by
  induction l with
  | nil => rfl
  | cons v rest ih =>
    have hv := h v (List.mem_cons_self v rest)
    unfold u16sToLEBytes at ih ⊢
    rw [List.flatMap_cons]
    show (v % 256 + 256 * (v / 256 % 256)) :: bytesToU16s (rest.flatMap toLE16)
      = v :: rest
    rw [ih fun w hw => h w (List.mem_cons_of_mem v hw)]
    congr 1
    unfold U16_RANGE at hv
    omega

theorem u16sToLEBytes_bytesToU16s : ∀ l : List Nat, (∀ b ∈ l, b < 256) →
    l.length % 2 = 0 → u16sToLEBytes (bytesToU16s l) = l := by
  intro l
  induction l using bytesToU16s.induct with
  | case1 => intro _ _; rfl
  | case2 => intro _ hl; simp at hl
  | case3 b0 b1 rest ih =>
    intro hb hl
    show u16sToLEBytes ((b0 + 256 * b1) :: bytesToU16s rest) = _
    unfold u16sToLEBytes
    rw [List.flatMap_cons]
    have e : toLE16 (b0 + 256 * b1) = [b0, b1] := by
      unfold toLE16
      have h0 := hb b0 (by simp)
      have h1 := hb b1 (by simp)
      have e0 : (b0 + 256 * b1) % 256 = b0 := by omega
      have e1 : (b0 + 256 * b1) / 256 % 256 = b1 := by omega
      rw [e0, e1]
    rw [e]
    have := ih (fun b hbm => hb b (by simp [hbm]))
      (by simp only [List.length_cons] at hl; omega)
    unfold u16sToLEBytes at this
    rw [this]
    rfl

theorem readU16_toLE16 (v : Nat) (r : List Nat) (hv : v < 65536) :
    readU16 (toLE16 v ++ r) = some (v, r) := by
  have e : v % 256 + 256 * (v / 256 % 256) = v := by omega
  show some (v % 256 + 256 * (v / 256 % 256), r) = some (v, r)
  rw [e]

theorem readI32_toLE32 (w : Nat) (r : List Nat) (hw : w < 2 ^ 32) :
    readI32 (toLE32 w ++ r) = some (toSigned32 w, r) := by
  have e : w % 256 + 256 * (w / 256 % 256) + 65536 * (w / 65536 % 256) +
      16777216 * (w / 16777216 % 256) = w := by omega
  show some (toSigned32 (w % 256 + 256 * (w / 256 % 256) +
    65536 * (w / 65536 % 256) + 16777216 * (w / 16777216 % 256)), r) =
    some (toSigned32 w, r)
  rw [e]

theorem readBytes_exact (a r : List Nat) :
    readBytes a.length (a ++ r) = some (a, r) := by
  unfold readBytes
  rw [if_pos (by rw [List.length_append]; omega), List.take_left' rfl,
    List.drop_left' rfl]

/-! ### The subsampling predicate counts rows exactly -/

theorem mod_p_eq_zero_iff_dvd (y s : Int) (hs : 0 < s) :
    mod_p y s = 0 ↔ s ∣ y := by
  constructor
  · intro h
    have hid := mod_p_add_mul_div_p y s
    rw [h, zero_add] at hid
    exact ⟨div_p y s, hid.symm⟩
  · rintro ⟨k, rfl⟩
    have hb := mod_p_nonneg_lt (s * k) s (by omega)
    rw [abs_of_pos hs] at hb
    have hmod : mod_p (s * k) s = s * (k - div_p (s * k) s) := by
      unfold mod_p
      ring
    set m := k - div_p (s * k) s with hm
    have h1 : 0 ≤ s * m := hmod ▸ hb.1
    have h2 : s * m < s := hmod ▸ hb.2
    have hm0 : m = 0 := by
      by_contra hne
      rcases lt_or_gt_of_ne hne with hneg | hpos
      · have hle := mul_le_mul_of_nonneg_left (show m ≤ -1 by omega) hs.le
        rw [mul_neg_one] at hle
        omega
      · have hle := mul_le_mul_of_nonneg_left (show (1:Int) ≤ m by omega) hs.le
        rw [mul_one] at hle
        omega
    rw [hmod, hm0, mul_zero]

/-- On the i32-overflow-free domain (`y_sampling` a positive i32 that the
cast preserves, the row an i32, and `y_sampling - 1 - y` in range), the
wrapping row-admission test is exact divisibility. -/
theorem admitsB_iff (y : Int) (s : Nat) (hs : 1 ≤ s) (hs31 : s < 2 ^ 31)
    (hy₁ : -(2 ^ 31) ≤ y) (hy₂ : y < 2 ^ 31)
    (hov : (s : Int) - 1 - y < 2 ^ 31) :
    admitsB y s = true ↔ (s : Int) ∣ y := by
  have hsI : (1:Int) ≤ (s : Int) := by exact_mod_cast hs
  have hsI31 : (s : Int) < 2 ^ 31 := by exact_mod_cast hs31
  unfold admitsB
  rw [wrap32_id (z := (s : Int)) (by omega) (by omega),
    mod_p32_eq_mod_p y s hy₁ hy₂ (by omega) (by omega) (by omega)
      (fun _ _ => hov) (fun _ hneg => absurd hneg (by omega)),
    decide_eq_true_iff]
  exact mod_p_eq_zero_iff_dvd y s (by omega)

theorem countP_eqzero_range (s : Nat) :
    (List.range s).countP (fun i => decide (i = 0)) =
      if 0 < s then 1 else 0 := by
  induction s with
  | zero => simp
  | succ s ih =>
    rw [List.range_succ, List.countP_append, ih]
    rcases Nat.eq_zero_or_pos s with rfl | hs
    · simp
    · rw [if_pos hs, if_pos (by omega)]
      have : (s == 0) = false := by simp; omega
      simp [List.countP_cons, hs.ne']

theorem countP_dvd_range (s : Nat) (hs : 1 ≤ s) : ∀ k : Nat,
    (List.range (s * k)).countP (fun i => decide (s ∣ i)) = k := by
  intro k
  induction k with
  | zero => simp
  | succ k ih =>
    rw [show s * (k + 1) = s * k + s from by ring, List.range_add,
      List.countP_append, ih, List.countP_map]
    have hcongr : (List.range s).countP ((fun i => decide (s ∣ i)) ∘
        (fun i => s * k + i)) =
        (List.range s).countP (fun i => decide (i = 0)) := by
      apply List.countP_congr
      intro i hi
      rw [List.mem_range] at hi
      simp only [Function.comp_apply, decide_eq_true_iff]
      constructor
      · intro hdvd
        have hdi : s ∣ i := (Nat.dvd_add_right ⟨k, rfl⟩).mp hdvd
        exact Nat.eq_zero_of_dvd_of_lt hdi hi
      · rintro rfl
        exact ⟨k, by ring⟩
    rw [hcongr, countP_eqzero_range, if_pos (by omega)]

theorem countP_map_nat_int (p : Int → Bool) (f : Nat → Int) :
    ∀ l : List Nat, (l.map f).countP p = l.countP fun i => p (f i) := by
  intro l
  induction l with
  | nil => rfl
  | cons x xs ih =>
    rw [List.map_cons, List.countP_cons, List.countP_cons, ih]

/-- Under the divisibility and i32-overflow-free preconditions, the
subsampling predicate admits exactly `h / s` of the rows
`a, a+1, …, a+h-1`. -/
theorem countP_admitted_rows (a : Int) (h s : Nat) (hs : 1 ≤ s)
    (hs31 : s < 2 ^ 31) (ha : -(2 ^ 31) ≤ a)
    (hah : a + (h : Int) ≤ 2 ^ 31) (hov : (s : Int) - 1 - a < 2 ^ 31)
    (hdvda : (s : Int) ∣ a) (hdvdh : s ∣ h) :
    ((List.range h).map fun i : Nat => a + (i : Int)).countP
      (fun y => admitsB y s) = h / s := by
  rw [countP_map_nat_int (fun y => admitsB y s) (fun i => a + (i : Int))
    (List.range h)]
  have hcongr : (List.range h).countP
      (fun i : Nat => admitsB (a + (i : Int)) s) =
      (List.range h).countP (fun i => decide (s ∣ i)) := by
    apply List.countP_congr
    intro i hi
    rw [List.mem_range] at hi
    have hiI : (i : Int) < (h : Int) := by exact_mod_cast hi
    have hiI0 : (0 : Int) ≤ (i : Int) := by exact_mod_cast Nat.zero_le i
    simp only [decide_eq_true_iff]
    rw [admitsB_iff _ s hs hs31 (by omega) (by omega) (by omega),
      dvd_add_right hdvda, Int.natCast_dvd_natCast]
  rw [hcongr]
  obtain ⟨k, rfl⟩ := hdvdh
  rw [countP_dvd_range s hs k, Nat.mul_div_cancel_left k (by omega)]

/-! ### Channel advancement and the chain invariant -/

/-- The effect of one row on a channel's `tmp_end_index`. -/
def advanceRow (y : Int) (c : ChannelData) : ChannelData :=
  if admitsB y c.y_sampling then
    { c with tmp_end_index := c.tmp_end_index + lineSize c }
  else c

/-- Lanes consumed by a channel in one row. -/
def rowNeed (y : Int) (c : ChannelData) : Nat :=
  if admitsB y c.y_sampling then lineSize c else 0

/-- Lanes consumed by a channel over a row list. -/
def need (ys : List Int) (c : ChannelData) : Nat :=
  lineSize c * ys.countP fun y => admitsB y c.y_sampling

/-- The effect of a whole row list on a channel's `tmp_end_index`. -/
def advanceAll (ys : List Int) (c : ChannelData) : ChannelData :=
  { c with tmp_end_index := c.tmp_end_index + need ys c }

/-- Lanes consumed by all channels in one row. -/
def rowTotal (y : Int) (cs : List ChannelData) : Nat :=
  (cs.map (rowNeed y)).sum

/-- Lanes consumed by all channels over a row list. -/
def totalNeed (ys : List Int) (cs : List ChannelData) : Nat :=
  (cs.map (need ys)).sum

/-- The segment-discipline invariant: reading positions and segment bounds
interleave monotonically, `lo ≤ e₁ ≤ b₁ ≤ e₂ ≤ b₂ ≤ … ≤ L`. -/
def chain (lo L : Nat) : List ChannelData → Prop
  | [] => lo ≤ L
  | c :: cs => lo ≤ c.tmp_end_index ∧ c.tmp_end_index ≤ segBound c ∧
      chain (segBound c) L cs

theorem lineSize_advanceRow (y : Int) (c : ChannelData) :
    lineSize (advanceRow y c) = lineSize c := by
  unfold advanceRow lineSize
  split <;> rfl

theorem segBound_advanceRow (y : Int) (c : ChannelData) :
    segBound (advanceRow y c) = segBound c := by
  unfold advanceRow segBound segSize
  split <;> rfl

theorem ySampling_advanceRow (y : Int) (c : ChannelData) :
    (advanceRow y c).y_sampling = c.y_sampling := by
  unfold advanceRow
  split <;> rfl

theorem end_advanceRow (y : Int) (c : ChannelData) :
    (advanceRow y c).tmp_end_index = c.tmp_end_index + rowNeed y c := by
  unfold advanceRow rowNeed
  split <;> simp

theorem need_advanceRow (ys : List Int) (y : Int) (c : ChannelData) :
    need ys (advanceRow y c) = need ys c := by
  unfold need
  rw [lineSize_advanceRow, ySampling_advanceRow]

theorem need_cons (y : Int) (ys : List Int) (c : ChannelData) :
    need (y :: ys) c = rowNeed y c + need ys c := by
  unfold need rowNeed
  rw [List.countP_cons]
  by_cases h : admitsB y c.y_sampling <;> simp [h] <;> ring

theorem advanceAll_nil (c : ChannelData) : advanceAll [] c = c := by
  unfold advanceAll need
  simp

theorem advanceAll_cons (y : Int) (ys : List Int) (c : ChannelData) :
    advanceAll (y :: ys) c = advanceAll ys (advanceRow y c) := by
  unfold advanceAll
  rw [need_advanceRow, end_advanceRow, need_cons]
  cases c
  unfold advanceRow
  split <;> simp <;> omega

theorem end_advanceAll (ys : List Int) (c : ChannelData) :
    (advanceAll ys c).tmp_end_index = c.tmp_end_index + need ys c := rfl

theorem segBound_advanceAll (ys : List Int) (c : ChannelData) :
    segBound (advanceAll ys c) = segBound c := rfl

theorem chain_le : ∀ (cs : List ChannelData) (lo L : Nat),
    chain lo L cs → lo ≤ L := by
  intro cs
  induction cs with
  | nil => intro lo L h; exact h
  | cons c cs ih =>
    intro lo L h
    obtain ⟨h1, h2, h3⟩ := h
    have := ih (segBound c) L h3
    omega

theorem chain_mem : ∀ (cs : List ChannelData) (lo L : Nat),
    chain lo L cs → ∀ c ∈ cs,
      lo ≤ c.tmp_end_index ∧ c.tmp_end_index ≤ segBound c ∧
        segBound c ≤ L := by
  intro cs
  induction cs with
  | nil => intro lo L _ c hc; cases hc
  | cons c₀ cs ih =>
    intro lo L h c hc
    obtain ⟨h1, h2, h3⟩ := h
    rcases List.mem_cons.mp hc with rfl | hc
    · exact ⟨h1, h2, chain_le cs (segBound c) L h3⟩
    · have := ih (segBound c₀) L h3 c hc
      omega

theorem chain_trichotomy : ∀ (cs : List ChannelData) (lo L : Nat),
    chain lo L cs → ∀ c ∈ cs, ∀ c' ∈ cs,
      c = c' ∨ segBound c ≤ c'.tmp_end_index ∨
        segBound c' ≤ c.tmp_end_index := by
  intro cs
  induction cs with
  | nil => intro lo L _ c hc; cases hc
  | cons c₀ cs ih =>
    intro lo L h c hc c' hc'
    obtain ⟨h1, h2, h3⟩ := h
    rcases List.mem_cons.mp hc with rfl | hcm
    · rcases List.mem_cons.mp hc' with rfl | hcm'
      · exact Or.inl rfl
      · have := chain_mem cs (segBound c) L h3 c' hcm'
        exact Or.inr (Or.inl (by omega))
    · rcases List.mem_cons.mp hc' with rfl | hcm'
      · have := chain_mem cs (segBound c') L h3 c hcm
        exact Or.inr (Or.inr (by omega))
      · exact ih (segBound c₀) L h3 c hcm c' hcm'

theorem chain_map_advanceRow : ∀ (cs : List ChannelData) (lo L : Nat)
    (y : Int), chain lo L cs →
    (∀ c ∈ cs, (advanceRow y c).tmp_end_index ≤ segBound c) →
    chain lo L (cs.map (advanceRow y)) := by
  intro cs
  induction cs with
  | nil => intro lo L y h _; exact h
  | cons c cs ih =>
    intro lo L y h hb
    obtain ⟨h1, h2, h3⟩ := h
    have he := end_advanceRow y c
    refine ⟨by omega, ?_, ?_⟩
    · rw [segBound_advanceRow]
      exact hb c (List.mem_cons_self c cs)
    · rw [segBound_advanceRow]
      exact ih (segBound c) L y h3
        fun c' hc' => hb c' (List.mem_cons_of_mem c hc')

/-- The channel-segment construction produces a chain from `start`. -/
theorem channel_data_aux_chain (rect : IntRect) : ∀ (cs : List Channel)
    (start L : Nat),
    start + ((channel_data_aux rect start cs).map segSize).sum ≤ L →
    chain start L (channel_data_aux rect start cs) := by
  intro cs
  induction cs with
  | nil =>
    intro start L h
    show start ≤ L
    simp only [channel_data_aux, List.map_nil, List.sum_nil] at h
    omega
  | cons ch cs ih =>
    intro start L h
    simp only [channel_data_aux, List.map_cons, List.sum_cons] at h
    simp only [channel_data_aux]
    refine ⟨le_refl start, ?_, ?_⟩
    · show start ≤ segBound _
      simp [segBound, segSize]
    · show chain (segBound _) L _
      have hb : segBound
          { tmp_start_index := start
            tmp_end_index := start
            resolution := subsampledResolution ch rect
            y_sampling := ch.ySampling
            samples_per_pixel := samplesPerPixel ch } =
          start + (subsampledResolution ch rect).1 *
            (subsampledResolution ch rect).2 * samplesPerPixel ch := by
        simp [segBound, segSize]
      rw [hb]
      apply ih
      simp [segSize] at h
      omega

/-- Every constructed channel datum comes from a source channel, with
`tmp_end_index = tmp_start_index`. -/
theorem channel_data_aux_mem (rect : IntRect) : ∀ (cs : List Channel)
    (start : Nat), ∀ d ∈ channel_data_aux rect start cs,
    ∃ ch ∈ cs, d.y_sampling = ch.ySampling ∧
      d.resolution = subsampledResolution ch rect ∧
      d.samples_per_pixel = samplesPerPixel ch ∧
      d.tmp_end_index = d.tmp_start_index := by
  intro cs
  induction cs with
  | nil => intro start d hd; cases hd
  | cons ch cs ih =>
    intro start d hd
    simp only [channel_data_aux] at hd
    rcases List.mem_cons.mp hd with rfl | hd
    · exact ⟨ch, List.mem_cons_self ch cs, rfl, rfl, rfl, rfl⟩
    · obtain ⟨ch', hch', hprops⟩ := ih _ d hd
      exact ⟨ch', List.mem_cons_of_mem ch hch', hprops⟩

theorem rowTotal_cons (y : Int) (c : ChannelData) (cs : List ChannelData) :
    rowTotal y (c :: cs) = rowNeed y c + rowTotal y cs := by
  unfold rowTotal
  rw [List.map_cons, List.sum_cons]

theorem totalNeed_nil : ∀ cs : List ChannelData, totalNeed [] cs = 0 := by
  intro cs
  induction cs with
  | nil => rfl
  | cons c cs ih =>
    unfold totalNeed at ih ⊢
    rw [List.map_cons, List.sum_cons, ih]
    unfold need
    simp

theorem totalNeed_cons (y : Int) (ys : List Int) :
    ∀ cs : List ChannelData,
      totalNeed (y :: ys) cs = rowTotal y cs + totalNeed ys cs := by
  intro cs
  induction cs with
  | nil => rfl
  | cons c cs ih =>
    unfold totalNeed rowTotal at ih ⊢
    rw [List.map_cons, List.sum_cons, List.map_cons, List.sum_cons,
      List.map_cons, List.sum_cons, need_cons]
    omega

theorem totalNeed_map_advanceRow (ys : List Int) (y : Int) :
    ∀ cs : List ChannelData,
      totalNeed ys (cs.map (advanceRow y)) = totalNeed ys cs := by
  intro cs
  induction cs with
  | nil => rfl
  | cons c cs ih =>
    unfold totalNeed at ih ⊢
    simp only [List.map_cons, List.sum_cons, ih, need_advanceRow]

theorem map_advanceAll_nil (cs : List ChannelData) :
    cs.map (advanceAll []) = cs := by
  rw [show advanceAll [] = fun c => c from funext advanceAll_nil]
  exact List.map_id' cs

theorem mem_writeChunk {tmp chunk : List Nat} {e : Nat} :
    ∀ v ∈ writeChunk tmp e chunk, v ∈ tmp ∨ v ∈ chunk := by
  intro v hv
  unfold writeChunk at hv
  rcases List.mem_append.mp hv with hv | hv
  · rcases List.mem_append.mp hv with hv | hv
    · exact Or.inl (List.mem_of_mem_take hv)
    · exact Or.inr hv
  · exact Or.inl (List.mem_of_mem_drop hv)

/-- Values in the interleaved buffer come from the initial buffer or the
input stream. -/
theorem scatterChans_mem (y : Int) : ∀ (cs : List ChannelData)
    (tmp stream : List Nat) (cs' tmp' s' : _),
    scatterChans y cs tmp stream = some (cs', tmp', s') →
    ∀ v ∈ tmp', v ∈ tmp ∨ v ∈ stream := by
  intro cs
  induction cs with
  | nil =>
    intro tmp stream cs' tmp' s' h v hv
    simp only [scatterChans, Option.some.injEq, Prod.mk.injEq] at h
    rw [← h.2.1] at hv
    exact Or.inl hv
  | cons c cs ih =>
    intro tmp stream cs' tmp' s' h v hv
    simp only [scatterChans] at h
    split at h
    · split at h
      · cases hm : scatterChans y cs
            (writeChunk tmp c.tmp_end_index (stream.take (lineSize c)))
            (stream.drop (lineSize c)) with
        | none => rw [hm] at h; cases h
        | some r =>
          rw [hm] at h
          simp only [Option.some.injEq, Prod.mk.injEq] at h
          have hv' : v ∈ r.2.1 := by rw [h.2.1]; exact hv
          rcases ih _ _ r.1 r.2.1 r.2.2 (by rw [hm]) v hv' with hw | hs
          · rcases mem_writeChunk v hw with ht | hc
            · exact Or.inl ht
            · exact Or.inr (List.mem_of_mem_take hc)
          · exact Or.inr (List.mem_of_mem_drop hs)
      · cases h
    · cases hm : scatterChans y cs tmp stream with
      | none => rw [hm] at h; cases h
      | some r =>
        rw [hm] at h
        simp only [Option.some.injEq, Prod.mk.injEq] at h
        have hv' : v ∈ r.2.1 := by rw [h.2.1]; exact hv
        exact ih _ _ r.1 r.2.1 r.2.2 (by rw [hm]) v hv'

/-- `gatherChans` only looks at the buffer through the admitted channels'
current line slices. -/
theorem gatherChans_congr (y : Int) : ∀ (cs : List ChannelData)
    (T₁ T₂ : List Nat), T₁.length = T₂.length →
    (∀ c ∈ cs, admitsB y c.y_sampling = true →
      sliceN T₁ c.tmp_end_index (lineSize c) =
        sliceN T₂ c.tmp_end_index (lineSize c)) →
    gatherChans y cs T₁ = gatherChans y cs T₂ := by
  intro cs
  induction cs with
  | nil => intro T₁ T₂ _ _; rfl
  | cons c cs ih =>
    intro T₁ T₂ hlen hsl
    simp only [gatherChans]
    by_cases hadm : admitsB y c.y_sampling
    · rw [if_pos hadm, if_pos hadm, hlen,
        ih T₁ T₂ hlen fun c' hc' => hsl c' (List.mem_cons_of_mem c hc'),
        hsl c (List.mem_cons_self c cs) hadm]
    · rw [if_neg hadm, if_neg hadm,
        ih T₁ T₂ hlen fun c' hc' => hsl c' (List.mem_cons_of_mem c hc')]

/-- Full specification of one interleaver row: under the chain discipline
and the per-row fit condition, the row succeeds, advances every admitted
channel by one line, consumes exactly `rowTotal` lanes of the stream,
touches the buffer only inside the advanced regions — and the
de-interleaver row, run on the resulting buffer from the same starting
state, returns exactly the consumed stream prefix. -/
theorem scatterChans_spec (y : Int) : ∀ (cs : List ChannelData)
    (tmp stream : List Nat) (lo : Nat),
    chain lo tmp.length cs →
    (∀ c ∈ cs, admitsB y c.y_sampling = true →
      c.tmp_end_index + lineSize c ≤ segBound c) →
    rowTotal y cs ≤ stream.length →
    ∃ tmp', scatterChans y cs tmp stream =
        some (cs.map (advanceRow y), tmp', stream.drop (rowTotal y cs)) ∧
      tmp'.length = tmp.length ∧
      (∀ j, (∀ c ∈ cs, ¬(c.tmp_end_index ≤ j ∧
          j < (advanceRow y c).tmp_end_index)) →
        tmp'.getD j 0 = tmp.getD j 0) ∧
      gatherChans y cs tmp' =
        some (cs.map (advanceRow y), stream.take (rowTotal y cs)) := by
  intro cs
  induction cs with
  | nil =>
    intro tmp stream lo _ _ _
    refine ⟨tmp, ?_, rfl, fun j _ => rfl, ?_⟩
    · simp [scatterChans, rowTotal]
    · simp [gatherChans, rowTotal]
  | cons c cs ih =>
    intro tmp stream lo hchain hfit hstream
    obtain ⟨hc1, hc2, hc3⟩ := hchain
    have hsegL : segBound c ≤ tmp.length := chain_le cs (segBound c) _ hc3
    have hrt : rowTotal y (c :: cs) = rowNeed y c + rowTotal y cs :=
      rowTotal_cons y c cs
    by_cases hadm : admitsB y c.y_sampling
    · -- the channel is admitted: write one line
      have hfitc := hfit c (List.mem_cons_self c cs) hadm
      have hrn : rowNeed y c = lineSize c := by unfold rowNeed; rw [if_pos hadm]
      have hn_stream : lineSize c ≤ stream.length := by omega
      have hchunklen : (stream.take (lineSize c)).length = lineSize c := by
        rw [List.length_take]
        omega
      have htmp1len : (writeChunk tmp c.tmp_end_index
          (stream.take (lineSize c))).length = tmp.length :=
        writeChunk_length (by rw [hchunklen]; omega)
      obtain ⟨tmp', hscat, hlen, hframe, hgather⟩ := ih
        (writeChunk tmp c.tmp_end_index (stream.take (lineSize c)))
        (stream.drop (lineSize c)) (segBound c) (htmp1len ▸ hc3)
        (fun c' hc' ha => hfit c' (List.mem_cons_of_mem c hc') ha)
        (by rw [List.length_drop]; omega)
      have hadv : advanceRow y c =
          { c with tmp_end_index := c.tmp_end_index + lineSize c } := by
        unfold advanceRow
        rw [if_pos hadm]
      have hendadv : (advanceRow y c).tmp_end_index =
          c.tmp_end_index + lineSize c := by rw [hadv]
      have htail_lo : ∀ c' ∈ cs, segBound c ≤ c'.tmp_end_index :=
        fun c' hc' => (chain_mem cs (segBound c) _ hc3 c' hc').1
      -- the written line survives the rest of the row
      have hslice : sliceN tmp' c.tmp_end_index (lineSize c) =
          stream.take (lineSize c) := by
        have h1 : sliceN tmp' c.tmp_end_index (lineSize c) =
            sliceN (writeChunk tmp c.tmp_end_index
              (stream.take (lineSize c))) c.tmp_end_index (lineSize c) := by
          apply sliceN_congr (by omega) (by omega)
          intro j hj1 hj2
          apply hframe
          intro c' hc'
          have hlo := htail_lo c' hc'
          have hadv' := end_advanceRow y c'
          omega
        rw [h1]
        have hws := @writeChunk_slice tmp (stream.take (lineSize c))
          c.tmp_end_index (by rw [hchunklen]; omega)
        rw [hchunklen] at hws
        exact hws
      refine ⟨tmp', ?_, by omega, ?_, ?_⟩
      · -- the scatter equation
        simp only [scatterChans]
        rw [if_pos hadm, if_pos ⟨hn_stream, by omega⟩, hscat]
        rw [List.map_cons, hadv, List.drop_drop]
        rw [show lineSize c + rowTotal y cs = rowTotal y (c :: cs) from by
          omega]
      · -- the frame property
        intro j hj
        have hjc := hj c (List.mem_cons_self c cs)
        rw [hendadv] at hjc
        rw [hframe j fun c' hc' => hj c' (List.mem_cons_of_mem c hc')]
        rcases Nat.lt_or_ge j c.tmp_end_index with hlt | hge
        · exact writeChunk_getD_lt hlt (by omega)
        · exact writeChunk_getD_ge (by rw [hchunklen]; omega) (by omega)
      · -- the gather equation
        rw [List.map_cons, hadv,
          show stream.take (rowTotal y (c :: cs)) =
            stream.take (lineSize c) ++
              (stream.drop (lineSize c)).take (rowTotal y cs) from by
            rw [← List.take_add]; congr 1; omega,
          ← hslice]
        simp only [gatherChans]
        rw [if_pos hadm,
          if_pos (show c.tmp_end_index + lineSize c ≤ tmp'.length from by
            omega),
          hgather]
    · -- the channel is skipped
      have hrn : rowNeed y c = 0 := by unfold rowNeed; rw [if_neg hadm]
      obtain ⟨tmp', hscat, hlen, hframe, hgather⟩ := ih tmp stream
        (segBound c) hc3 (fun c' hc' ha => hfit c' (List.mem_cons_of_mem c hc') ha)
        (by omega)
      have hadv : advanceRow y c = c := by
        unfold advanceRow
        rw [if_neg hadm]
      refine ⟨tmp', ?_, hlen, ?_, ?_⟩
      · simp only [scatterChans]
        rw [if_neg hadm, hscat, List.map_cons, hadv,
          show rowTotal y (c :: cs) = rowTotal y cs from by omega]
      · intro j hj
        exact hframe j fun c' hc' => hj c' (List.mem_cons_of_mem c hc')
      · simp only [gatherChans]
        rw [if_neg hadm, hgather, List.map_cons, hadv,
          show rowTotal y (c :: cs) = rowTotal y cs from by omega]

/-- Full specification of the interleaver: under the chain discipline and
the fit condition, interleaving succeeds, advances every channel by its
total need, consumes exactly `totalNeed` lanes, touches the buffer only
inside the advanced regions — and the de-interleaver, run on the final
buffer from the same starting channel state, returns exactly the consumed
stream prefix. -/
theorem scatterRows_spec : ∀ (ys : List Int) (cs : List ChannelData)
    (tmp stream : List Nat) (lo : Nat),
    chain lo tmp.length cs →
    (∀ c ∈ cs, c.tmp_end_index + need ys c ≤ segBound c) →
    totalNeed ys cs ≤ stream.length →
    ∃ tmp', scatterRows ys cs tmp stream =
        some (cs.map (advanceAll ys), tmp', stream.drop (totalNeed ys cs)) ∧
      tmp'.length = tmp.length ∧
      (∀ j, (∀ c ∈ cs, ¬(c.tmp_end_index ≤ j ∧
          j < (advanceAll ys c).tmp_end_index)) →
        tmp'.getD j 0 = tmp.getD j 0) ∧
      gatherRows ys cs tmp' =
        some (cs.map (advanceAll ys), stream.take (totalNeed ys cs)) := by
  intro ys
  induction ys with
  | nil =>
    intro cs tmp stream lo _ _ _
    refine ⟨tmp, ?_, rfl, fun j _ => rfl, ?_⟩
    · simp [scatterRows, map_advanceAll_nil, totalNeed_nil]
    · simp [gatherRows, map_advanceAll_nil, totalNeed_nil]
  | cons y ys ih =>
    intro cs tmp stream lo hchain hfit hstream
    have htn := totalNeed_cons y ys cs
    have hneedc : ∀ c ∈ cs, need (y :: ys) c = rowNeed y c + need ys c :=
      fun c _ => need_cons y ys c
    have hrfit : ∀ c ∈ cs, admitsB y c.y_sampling = true →
        c.tmp_end_index + lineSize c ≤ segBound c := by
      intro c hc ha
      have h1 := hfit c hc
      have h2 := hneedc c hc
      have h3 : rowNeed y c = lineSize c := by unfold rowNeed; rw [if_pos ha]
      omega
    obtain ⟨tmp1, hscat1, hlen1, hframe1, hgather1⟩ :=
      scatterChans_spec y cs tmp stream lo hchain hrfit (by omega)
    have hchain1 : chain lo tmp1.length (cs.map (advanceRow y)) := by
      rw [hlen1]
      apply chain_map_advanceRow cs lo tmp.length y hchain
      intro c hc
      have h1 := hfit c hc
      have h2 := hneedc c hc
      have h3 := end_advanceRow y c
      omega
    have hfit1 : ∀ c1 ∈ cs.map (advanceRow y),
        c1.tmp_end_index + need ys c1 ≤ segBound c1 := by
      intro c1 hc1
      obtain ⟨c, hc, rfl⟩ := List.mem_map.mp hc1
      rw [end_advanceRow, need_advanceRow, segBound_advanceRow]
      have h1 := hfit c hc
      have h2 := hneedc c hc
      omega
    have hstream1 : totalNeed ys (cs.map (advanceRow y)) ≤
        (stream.drop (rowTotal y cs)).length := by
      rw [totalNeed_map_advanceRow, List.length_drop]
      omega
    obtain ⟨tmpF, hscatF, hlenF, hframeF, hgatherF⟩ :=
      ih (cs.map (advanceRow y)) tmp1 (stream.drop (rowTotal y cs)) lo
        hchain1 hfit1 hstream1
    have hmapcomp : (cs.map (advanceRow y)).map (advanceAll ys) =
        cs.map (advanceAll (y :: ys)) := by
      rw [List.map_map]
      apply List.map_congr_left
      intro c _
      exact (advanceAll_cons y ys c).symm
    have hialls : ∀ c ∈ cs, (advanceAll (y :: ys) c).tmp_end_index =
        c.tmp_end_index + rowNeed y c + need ys c := by
      intro c hc
      rw [end_advanceAll, hneedc c hc]
      omega
    refine ⟨tmpF, ?_, by omega, ?_, ?_⟩
    · -- the scatter equation
      simp only [scatterRows]
      rw [hscat1]
      show scatterRows ys (cs.map (advanceRow y)) tmp1
        (stream.drop (rowTotal y cs)) = _
      rw [hscatF, hmapcomp, totalNeed_map_advanceRow, List.drop_drop,
        show rowTotal y cs + totalNeed ys cs = totalNeed (y :: ys) cs from by
          omega]
    · -- the frame property
      intro j hj
      have hstep1 : ∀ c1 ∈ cs.map (advanceRow y),
          ¬(c1.tmp_end_index ≤ j ∧ j < (advanceAll ys c1).tmp_end_index) := by
        intro c1 hc1
        obtain ⟨c, hc, rfl⟩ := List.mem_map.mp hc1
        have hjc := hj c hc
        have h1 := end_advanceRow y c
        have h2 : (advanceAll ys (advanceRow y c)).tmp_end_index =
            (advanceRow y c).tmp_end_index + need ys c := by
          rw [end_advanceAll, need_advanceRow]
        have h3 := hialls c hc
        omega
      have hstep2 : ∀ c ∈ cs,
          ¬(c.tmp_end_index ≤ j ∧ j < (advanceRow y c).tmp_end_index) := by
        intro c hc
        have hjc := hj c hc
        have h1 := end_advanceRow y c
        have h3 := hialls c hc
        omega
      rw [hframeF j hstep1, hframe1 j hstep2]
    · -- the gather equation
      simp only [gatherRows]
      have hg : gatherChans y cs tmpF = gatherChans y cs tmp1 := by
        apply gatherChans_congr y cs tmpF tmp1 (by omega)
        intro c hc ha
        have hfitc := hrfit c hc ha
        have hmem := chain_mem cs lo tmp.length hchain c hc
        apply sliceN_congr (by omega) (by omega)
        intro j hj1 hj2
        apply hframeF
        intro c1 hc1
        obtain ⟨c'', hc'', rfl⟩ := List.mem_map.mp hc1
        have h1 := end_advanceRow y c''
        have h2 : (advanceAll ys (advanceRow y c'')).tmp_end_index =
            (advanceRow y c'').tmp_end_index + need ys c'' := by
          rw [end_advanceAll, need_advanceRow]
        rcases chain_trichotomy cs lo tmp.length hchain c hc c'' hc'' with
          rfl | hord | hord
        · have h3 : rowNeed y c = lineSize c := by
            unfold rowNeed
            rw [if_pos ha]
          omega
        · -- segBound c ≤ c''.tmp_end_index
          omega
        · -- segBound c'' ≤ c.tmp_end_index
          have h4 := hfit c'' hc''
          have h5 := hneedc c'' hc''
          omega
      rw [hg, hgather1]
      show (match gatherRows ys (cs.map (advanceRow y)) tmpF with
        | some (cs'', out2) =>
          some (cs'', stream.take (rowTotal y cs) ++ out2)
        | none => none) = _
      rw [hgatherF, hmapcomp, totalNeed_map_advanceRow,
        show stream.take (totalNeed (y :: ys) cs) =
          stream.take (rowTotal y cs) ++
            (stream.drop (rowTotal y cs)).take (totalNeed ys cs) from by
          rw [htn, List.take_add]]

/-! ### The codec pipeline under the validity precondition -/

theorem writeChunk_nil (tmp : List Nat) (e : Nat) :
    writeChunk tmp e [] = tmp := by
  unfold writeChunk
  simp

/-- Both scan results stay within the bitmap (the minimum only decreases
from its seed, the maximum is the seed 0 or a position). -/
theorem scanMinMax_le (bm : List Nat) :
    (scanMinMax bm).1 ≤ bm.length - 1 ∧ (scanMinMax bm).2 ≤ bm.length - 1 := by
  rw [scanMinMax_eq_mmFold]
  obtain ⟨h1, h2, h3, h4, h5, h6⟩ := mmFold_spec bm 0 (bm.length - 1) 0
  refine ⟨h2, ?_⟩
  rcases h6 with h | ⟨_, hlt, _⟩
  · omega
  · omega

/-- Under the identity wavelet model the encode loop returns the buffer
unchanged whenever every segment is well-formed. -/
theorem waveletEncLoop_id (mv : Nat) : ∀ (cs : List ChannelData)
    (tmp : List Nat), (∀ c ∈ cs, c.tmp_start_index ≤ c.tmp_end_index) →
    waveletEncLoop mv cs tmp = .ok tmp := by
  intro cs
  induction cs with
  | nil => intro tmp _; rfl
  | cons c cs ih =>
    intro tmp h
    simp only [waveletEncLoop, wavelet_encode]
    rw [spliceBack_self (h c (List.mem_cons_self c cs))]
    exact ih tmp fun c' hc' => h c' (List.mem_cons_of_mem c hc')

theorem spliceBack_self_add {tmp : List Nat} {a n : Nat} :
    spliceBack tmp a (a + n) (sliceN tmp a n) = tmp := by
  have h := @spliceBack_self tmp a (a + n) (by omega)
  rwa [show a + n - a = n from by omega] at h

/-- Under the identity wavelet model the decode loop returns the buffer
unchanged. -/
theorem waveletDecLoop_id (mv : Nat) : ∀ (cs : List ChannelData)
    (tmp : List Nat), waveletDecLoop mv cs tmp = .ok tmp := by
  intro cs
  induction cs with
  | nil => intro tmp; rfl
  | cons c cs ih =>
    intro tmp
    simp only [waveletDecLoop, wavelet_decode]
    rw [spliceBack_self_add]
    exact ih tmp

/-- The leftover stream of the interleaver is part of the input stream. -/
theorem scatterChans_stream_mem (y : Int) : ∀ (cs : List ChannelData)
    (tmp stream : List Nat) (cs' tmp' s' : _),
    scatterChans y cs tmp stream = some (cs', tmp', s') →
    ∀ v ∈ s', v ∈ stream := by
  intro cs
  induction cs with
  | nil =>
    intro tmp stream cs' tmp' s' h v hv
    simp only [scatterChans, Option.some.injEq, Prod.mk.injEq] at h
    rw [← h.2.2] at hv
    exact hv
  | cons c cs ih =>
    intro tmp stream cs' tmp' s' h v hv
    simp only [scatterChans] at h
    split at h
    · split at h
      · cases hm : scatterChans y cs
            (writeChunk tmp c.tmp_end_index (stream.take (lineSize c)))
            (stream.drop (lineSize c)) with
        | none => rw [hm] at h; cases h
        | some r =>
          rw [hm] at h
          simp only [Option.some.injEq, Prod.mk.injEq] at h
          have hv' : v ∈ r.2.2 := by rw [h.2.2]; exact hv
          exact List.mem_of_mem_drop
            (ih _ _ r.1 r.2.1 r.2.2 (by rw [hm]) v hv')
      · cases h
    · cases hm : scatterChans y cs tmp stream with
      | none => rw [hm] at h; cases h
      | some r =>
        rw [hm] at h
        simp only [Option.some.injEq, Prod.mk.injEq] at h
        have hv' : v ∈ r.2.2 := by rw [h.2.2]; exact hv
        exact ih _ _ r.1 r.2.1 r.2.2 (by rw [hm]) v hv'

/-- Values of the fully interleaved buffer come from the initial buffer or
the input stream. -/
theorem scatterRows_mem : ∀ (ys : List Int) (cs : List ChannelData)
    (tmp stream : List Nat) (cs' tmp' s' : _),
    scatterRows ys cs tmp stream = some (cs', tmp', s') →
    ∀ v ∈ tmp', v ∈ tmp ∨ v ∈ stream := by
  intro ys
  induction ys with
  | nil =>
    intro cs tmp stream cs' tmp' s' h v hv
    simp only [scatterRows, Option.some.injEq, Prod.mk.injEq] at h
    rw [← h.2.1] at hv
    exact Or.inl hv
  | cons y ys ih =>
    intro cs tmp stream cs' tmp' s' h v hv
    simp only [scatterRows] at h
    cases hm : scatterChans y cs tmp stream with
    | none => rw [hm] at h; cases h
    | some r =>
      obtain ⟨cs1, tmp1, s1⟩ := r
      rw [hm] at h
      rcases ih cs1 tmp1 s1 cs' tmp' s' h v hv with h1 | h1
      · rcases scatterChans_mem y cs tmp stream cs1 tmp1 s1 hm v h1 with
          h2 | h2
        · exact Or.inl h2
        · exact Or.inr h2
      · exact Or.inr (scatterChans_stream_mem y cs tmp stream cs1 tmp1 s1
          hm v h1)

/-- Every forward-table entry is a valid u16: the dense ranks stay below
the number of table slots. -/
theorem fwd_table_getD_lt (bm : List Nat) (w : Nat) (hw : w < U16_RANGE) :
    (forward_lookup_table_from_bitmap bm).2.getD w 0 < U16_RANGE := by
  unfold forward_lookup_table_from_bitmap
  rw [List.range_eq_range', fwdAux_entry bm U16_RANGE 0 0 w hw]
  by_cases hp : presentB bm (0 + w)
  · rw [if_pos hp]
    rw [show (0 + w) = w from by omega] at hp
    have h1 : (List.range' 0 w).countP (presentB bm) =
        (List.range w).countP (presentB bm) := by rw [List.range_eq_range']
    have h2 : (List.range w).countP (presentB bm) <
        (List.range U16_RANGE).countP (presentB bm) :=
      countP_range_lt (presentB bm) w U16_RANGE hw hp
    have h3 : (List.range U16_RANGE).countP (presentB bm) ≤ U16_RANGE := by
      have h := List.countP_le_length (p := presentB bm)
        (l := List.range U16_RANGE)
      rw [List.length_range] at h
      exact h
    omega
  · rw [if_neg hp]
    unfold U16_RANGE
    omega

/-- Applying the forward table and then the reverse table is the identity
on any data whose values are present in the bitmap (or zero). -/
theorem apply_lookup_roundtrip (data bm : List Nat)
    (h65 : ∀ v ∈ data, v < U16_RANGE)
    (hp : ∀ v ∈ data, v = 0 ∨ bitTestB bm v = true) :
    apply_lookup_table
      (apply_lookup_table data (forward_lookup_table_from_bitmap bm).2)
      (reverse_lookup_table_from_bitmap bm).1 = data := by
  unfold apply_lookup_table
  rw [List.map_map]
  have hcong : ∀ v ∈ data,
      ((fun w => (reverse_lookup_table_from_bitmap bm).1.getD w 0) ∘
        fun w => (forward_lookup_table_from_bitmap bm).2.getD w 0) v = v := by
    intro v hv
    simp only [Function.comp_apply]
    exact revGetD_fwdGetD bm v (h65 v hv) (hp v hv)
  rw [List.map_congr_left hcong, List.map_id']

/-- Every value occurring in the data has its bit set in the masked
bitmap built from that data (or is value 0). -/
theorem mem_bitTest_masked (data : List Nat)
    (h65 : ∀ v ∈ data, v < U16_RANGE) :
    ∀ v ∈ data, v = 0 ∨ bitTestB (maskedBitmap data) v = true := by
  intro v hv
  rcases Nat.eq_zero_or_pos v with rfl | hpos
  · exact Or.inl rfl
  · right
    rw [bitTestB_maskedBitmap data v hpos (h65 v hv),
      bitTestB_rawBitmap data h65 v (h65 v hv)]
    exact hv

/-- Decompression's bitmap reconstruction: splicing the transmitted slice
(bytes min..=max, or nothing when min > max) into a zeroed bitmap recovers
the compressor's bitmap exactly. -/
theorem bitmap_reconstruct (data : List Nat) :
    writeChunk (List.replicate BITMAP_SIZE 0) (bitmap_from_data data).1
      (if (bitmap_from_data data).1 ≤ (bitmap_from_data data).2.1 then
        sliceN (bitmap_from_data data).2.2 (bitmap_from_data data).1
          ((bitmap_from_data data).2.1 - (bitmap_from_data data).1 + 1)
      else []) = (bitmap_from_data data).2.2 := by
  have e2 : (bitmap_from_data data).2.2 = maskedBitmap data := rfl
  have e0 : (bitmap_from_data data).1 =
      (scanMinMax (maskedBitmap data)).1 := rfl
  have e1 : (bitmap_from_data data).2.1 =
      (scanMinMax (maskedBitmap data)).2 := rfl
  rw [e0, e1, e2]
  have hlen : (maskedBitmap data).length = BITMAP_SIZE :=
    maskedBitmap_length data
  have h8 : BITMAP_SIZE = 8192 := rfl
  obtain ⟨s1, s2⟩ := scanMinMax_spec (maskedBitmap data)
  obtain ⟨hmnle, hmxle⟩ := scanMinMax_le (maskedBitmap data)
  by_cases hcmp : (scanMinMax (maskedBitmap data)).1 ≤
      (scanMinMax (maskedBitmap data)).2
  · rw [if_pos hcmp]
    have hnz : ∃ j, j < (maskedBitmap data).length ∧
        (maskedBitmap data).getD j 0 ≠ 0 := by
      by_contra hno
      push_neg at hno
      obtain ⟨hmin, hmax⟩ := s2 hno
      omega
    obtain ⟨hminnz, hmaxnz, hbr⟩ := s1 hnz
    have hSlen : (sliceN (maskedBitmap data) (scanMinMax (maskedBitmap data)).1
        ((scanMinMax (maskedBitmap data)).2 -
          (scanMinMax (maskedBitmap data)).1 + 1)).length =
        (scanMinMax (maskedBitmap data)).2 -
          (scanMinMax (maskedBitmap data)).1 + 1 :=
      sliceN_length (by omega)
    apply ext_getD
    · rw [writeChunk_length (by rw [hSlen, List.length_replicate]; omega),
        List.length_replicate, hlen]
    · intro j hj
      rw [writeChunk_length (by rw [hSlen, List.length_replicate]; omega),
        List.length_replicate] at hj
      rcases Nat.lt_or_ge j (scanMinMax (maskedBitmap data)).1 with hlt | hge1
      · rw [writeChunk_getD_lt hlt (by rw [List.length_replicate]; omega),
          getD_replicate_zero]
        by_contra hne0
        have hj' := hbr j (by omega) fun he => hne0 he.symm
        omega
      · rcases Nat.lt_or_ge j ((scanMinMax (maskedBitmap data)).2 + 1) with
          hle2 | hgt2
        · rw [writeChunk_getD_mid hge1 (by rw [hSlen]; omega)
            (by rw [List.length_replicate]; omega),
            sliceN_getD (by omega)]
          congr 1
          omega
        · rw [writeChunk_getD_ge (by rw [hSlen]; omega)
            (by rw [List.length_replicate]; omega), getD_replicate_zero]
          by_contra hne0
          have hj' := hbr j (by omega) fun he => hne0 he.symm
          omega
  · rw [if_neg hcmp, writeChunk_nil]
    -- min > max: the bitmap is all zero
    have hzero : ∀ j, j < (maskedBitmap data).length →
        (maskedBitmap data).getD j 0 = 0 := by
      intro j hj
      by_contra hne0
      obtain ⟨_, _, hbr⟩ := s1 ⟨j, hj, hne0⟩
      have hj' := hbr j hj hne0
      omega
    apply ext_getD
    · rw [List.length_replicate, hlen]
    · intro j hj
      rw [List.length_replicate] at hj
      rw [getD_replicate_zero]
      exact (hzero j (by omega)).symm

/-- The row footprint of a channel equals its full segment size under the
divisibility and i32-overflow-free preconditions. -/
theorem need_eq_segSize (rect : IntRect) (d : ChannelData)
    (h1 : 1 ≤ d.y_sampling) (h2 : (d.y_sampling : Int) ∣ rect.posY)
    (h3 : d.y_sampling ∣ rect.sizeY)
    (h4 : d.resolution.2 = rect.sizeY / d.y_sampling)
    (h5 : d.y_sampling < 2 ^ 31)
    (h6 : -(2 ^ 31) ≤ rect.posY)
    (h7 : rect.posY + (rect.sizeY : Int) ≤ 2 ^ 31)
    (h8 : (d.y_sampling : Int) - 1 - rect.posY < 2 ^ 31) :
    need (rowIndices rect) d = segSize d := by
  unfold need rowIndices
  rw [countP_admitted_rows rect.posY rect.sizeY d.y_sampling h1 h5 h6 h7 h8
    h2 h3]
  unfold segSize lineSize
  rw [h4]
  ring

/-- Preparing the interleaver run behind both codec directions: under
`Valid`, interleaving succeeds, consumes the whole stream, fills a buffer
of u16 values, and de-interleaving that buffer returns the stream. -/
theorem scatter_setup (channels : List Channel) (bytes : List Nat)
    (rect : IntRect) (hval : Valid channels bytes rect) :
    ∃ tmp1,
      scatterRows (rowIndices rect) (channel_data channels rect)
          (List.replicate (bytes.length / 2) 0) (bytesToU16s bytes) =
        some ((channel_data channels rect).map (advanceAll (rowIndices rect)),
          tmp1, []) ∧
      tmp1.length = bytes.length / 2 ∧
      (∀ v ∈ tmp1, v < U16_RANGE) ∧
      gatherRows (rowIndices rect) (channel_data channels rect) tmp1 =
        some ((channel_data channels rect).map (advanceAll (rowIndices rect)),
          bytesToU16s bytes) := by
  obtain ⟨hch, hrect, hblen, hb31, hb256⟩ := hval
  have hstream : (bytesToU16s bytes).length = segTotal channels rect := by
    rw [bytesToU16s_length]
    omega
  have htmp0 : (List.replicate (bytes.length / 2) (0:Nat)).length =
      segTotal channels rect := by
    rw [List.length_replicate]
    omega
  have hchain : chain 0 (List.replicate (bytes.length / 2) (0:Nat)).length
      (channel_data channels rect) := by
    rw [htmp0]
    unfold channel_data
    apply channel_data_aux_chain
    unfold segTotal channel_data
    omega
  have hneedseg : ∀ d ∈ channel_data channels rect,
      need (rowIndices rect) d = segSize d := by
    intro d hd
    obtain ⟨ch, hchm, hy, hres, hspp, hend⟩ :=
      channel_data_aux_mem rect channels 0 d hd
    obtain ⟨hy1, hy2, hy3, hy4, hy5⟩ := hch ch hchm
    refine need_eq_segSize rect d ?_ ?_ ?_ ?_ ?_ hrect.1 hrect.2 ?_
    · rw [hy]; exact hy1
    · rw [hy]; exact hy2
    · rw [hy]; exact hy3
    · rw [hres, hy]
      rfl
    · rw [hy]; exact hy4
    · rw [hy]; exact hy5
  have htneed : totalNeed (rowIndices rect) (channel_data channels rect) =
      segTotal channels rect := by
    unfold totalNeed segTotal
    congr 1
    exact List.map_congr_left hneedseg
  have hfit : ∀ d ∈ channel_data channels rect,
      d.tmp_end_index + need (rowIndices rect) d ≤ segBound d := by
    intro d hd
    obtain ⟨ch, hchm, hy, hres, hspp, hend⟩ :=
      channel_data_aux_mem rect channels 0 d hd
    rw [hneedseg d hd]
    unfold segBound
    omega
  obtain ⟨tmp1, hscat, hlen1, hframe, hgat⟩ :=
    scatterRows_spec (rowIndices rect) (channel_data channels rect)
      (List.replicate (bytes.length / 2) 0) (bytesToU16s bytes) 0 hchain hfit
      (by rw [htneed, hstream])
  refine ⟨tmp1, ?_, ?_, ?_, ?_⟩
  · rw [hscat, htneed, ← hstream, List.drop_length]
  · rw [hlen1, List.length_replicate]
  · intro v hv
    rcases scatterRows_mem (rowIndices rect) (channel_data channels rect)
        (List.replicate (bytes.length / 2) 0) (bytesToU16s bytes) _ tmp1 _
        hscat v hv with h | h
    · rw [List.eq_of_mem_replicate h]
      unfold U16_RANGE
      omega
    · exact bytesToU16s_bound bytes hb256 v h
  · rw [hgat, htneed, ← hstream, List.take_length]

/-- The exact output of a successful compression: header, length word and
Huffman payload, written out of the interleaved and remapped buffer. -/
theorem compress_eq (channels : List Channel) (bytes : List Nat)
    (rect : IntRect) (tmp1 : List Nat) (hne : bytes ≠ [])
    (hscat : scatterRows (rowIndices rect) (channel_data channels rect)
      (List.replicate (bytes.length / 2) 0) (bytesToU16s bytes) =
      some ((channel_data channels rect).map (advanceAll (rowIndices rect)),
        tmp1, [])) :
    compress_bytes channels bytes rect = .ok
      ((toLE16 (bitmap_from_data tmp1).1 ++
        toLE16 (bitmap_from_data tmp1).2.1 ++
        (if (bitmap_from_data tmp1).1 ≤ (bitmap_from_data tmp1).2.1 then
          sliceN (bitmap_from_data tmp1).2.2 (bitmap_from_data tmp1).1
            ((bitmap_from_data tmp1).2.1 - (bitmap_from_data tmp1).1 + 1)
        else [])) ++
        toLE32 (u16sToLEBytes (apply_lookup_table tmp1
          (forward_lookup_table_from_bitmap
            (bitmap_from_data tmp1).2.2).2)).length ++
        u16sToLEBytes (apply_lookup_table tmp1
          (forward_lookup_table_from_bitmap
            (bitmap_from_data tmp1).2.2).2)) := by
  have hstarts : ∀ c ∈ (channel_data channels rect).map
      (advanceAll (rowIndices rect)), c.tmp_start_index ≤ c.tmp_end_index := by
    intro c hc
    obtain ⟨d, hd, rfl⟩ := List.mem_map.mp hc
    obtain ⟨ch, hchm, hy, hres, hspp, hend⟩ :=
      channel_data_aux_mem rect channels 0 d hd
    have he := end_advanceAll (rowIndices rect) d
    have hs : (advanceAll (rowIndices rect) d).tmp_start_index =
        d.tmp_start_index := rfl
    omega
  unfold compress_bytes
  rw [if_neg hne]
  simp only [hscat]
  simp only [waveletEncLoop_id _ _ _ hstarts, huffman_compress]

/-- Decompressing the exact output layout of the compressor recovers the
original pixel bytes. -/
theorem decompress_eq (channels : List Channel) (bytes : List Nat)
    (rect : IntRect) (tmp1 : List Nat) (mn mx : Nat) (bm P : List Nat)
    (hval : Valid channels bytes rect)
    (hmn : mn = (bitmap_from_data tmp1).1)
    (hmx : mx = (bitmap_from_data tmp1).2.1)
    (hbm : bm = (bitmap_from_data tmp1).2.2)
    (hP : P = u16sToLEBytes (apply_lookup_table tmp1
      (forward_lookup_table_from_bitmap bm).2))
    (hlen1 : tmp1.length = bytes.length / 2)
    (hmem : ∀ v ∈ tmp1, v < U16_RANGE)
    (hgather : gatherRows (rowIndices rect) (channel_data channels rect) tmp1 =
      some ((channel_data channels rect).map (advanceAll (rowIndices rect)),
        bytesToU16s bytes)) :
    decompress_bytes channels
      (toLE16 mn ++ (toLE16 mx ++
        ((if mn ≤ mx then sliceN bm mn (mx - mn + 1) else []) ++
          (toLE32 P.length ++ P)))) rect bytes.length = .ok bytes := by
  obtain ⟨hch, hrect, hblen, hb31, hb256⟩ := hval
  have h8 : BITMAP_SIZE = 8192 := rfl
  have h31 : (2:Nat) ^ 31 = 2147483648 := by norm_num
  have h32 : (2:Nat) ^ 32 = 4294967296 := by norm_num
  have hbmlen : bm.length = BITMAP_SIZE := by
    rw [hbm]
    exact maskedBitmap_length tmp1
  have hmnle : mn ≤ BITMAP_SIZE - 1 := by
    rw [hmn]
    show (scanMinMax (maskedBitmap tmp1)).1 ≤ BITMAP_SIZE - 1
    have h := (scanMinMax_le (maskedBitmap tmp1)).1
    rw [maskedBitmap_length] at h
    exact h
  have hmxle : mx ≤ BITMAP_SIZE - 1 := by
    rw [hmx]
    show (scanMinMax (maskedBitmap tmp1)).2 ≤ BITMAP_SIZE - 1
    have h := (scanMinMax_le (maskedBitmap tmp1)).2
    rw [maskedBitmap_length] at h
    exact h
  have hmn65 : mn < 65536 := by omega
  have hmx65 : mx < 65536 := by omega
  have hmxB : ¬ BITMAP_SIZE ≤ mx := by omega
  have hSread : (if mn ≤ mx then
        readBytes (mx - mn + 1)
          ((if mn ≤ mx then sliceN bm mn (mx - mn + 1) else []) ++
            (toLE32 P.length ++ P))
      else some ([],
        (if mn ≤ mx then sliceN bm mn (mx - mn + 1) else []) ++
          (toLE32 P.length ++ P))) =
      some ((if mn ≤ mx then sliceN bm mn (mx - mn + 1) else []),
        toLE32 P.length ++ P) := by
    by_cases hcmp : mn ≤ mx
    · rw [if_pos hcmp, if_pos hcmp]
      have hSlen : (sliceN bm mn (mx - mn + 1)).length = mx - mn + 1 :=
        sliceN_length (by omega)
      nth_rewrite 1 [← hSlen]
      exact readBytes_exact (sliceN bm mn (mx - mn + 1)) (toLE32 P.length ++ P)
    · rw [if_neg hcmp, if_neg hcmp, List.nil_append]
  have hbmrec : writeChunk (List.replicate BITMAP_SIZE 0) mn
      (if mn ≤ mx then sliceN bm mn (mx - mn + 1) else []) = bm := by
    rw [hmn, hmx, hbm]
    exact bitmap_reconstruct tmp1
  have hPlen : P.length = bytes.length := by
    rw [hP, u16sToLEBytes_length]
    unfold apply_lookup_table
    rw [List.length_map, hlen1]
    omega
  have hP32 : P.length < 2 ^ 32 := by omega
  have htS : toSigned32 P.length = (P.length : Int) := by
    unfold toSigned32
    rw [if_pos (by omega)]
  have hvals : ∀ v ∈ apply_lookup_table tmp1
      (forward_lookup_table_from_bitmap bm).2, v < U16_RANGE := by
    intro v hv
    unfold apply_lookup_table at hv
    obtain ⟨w, hw, rfl⟩ := List.mem_map.mp hv
    exact fwd_table_getD_lt bm w (hmem w hw)
  have hhuff : huffman_decompress P (bytes.length / 2) =
      some (apply_lookup_table tmp1
        (forward_lookup_table_from_bitmap bm).2) := by
    unfold huffman_decompress
    rw [if_pos (show P.length = 2 * (bytes.length / 2) from by omega), hP,
      bytesToU16s_u16sToLEBytes _ hvals]
  have happly : apply_lookup_table
      (apply_lookup_table tmp1 (forward_lookup_table_from_bitmap bm).2)
      (reverse_lookup_table_from_bitmap bm).1 = tmp1 := by
    rw [hbm]
    exact apply_lookup_roundtrip tmp1 (maskedBitmap tmp1) hmem
      (mem_bitTest_masked tmp1 hmem)
  have hne : (toLE16 mn ++ (toLE16 mx ++
      ((if mn ≤ mx then sliceN bm mn (mx - mn + 1) else []) ++
        (toLE32 P.length ++ P))) : List Nat) ≠ [] := by
    simp [toLE16]
  unfold decompress_bytes
  rw [if_neg hne]
  simp only [readU16_toLE16 mn _ hmn65, readU16_toLE16 mx _ hmx65]
  rw [if_neg hmxB]
  simp only [hSread]
  rw [hbmrec]
  simp only [readI32_toLE32 P.length _ hP32]
  rw [htS]
  rw [if_neg (show ¬((P.length : Int) < 0 ∨
      (P.length : Int) < (P.length : Int)) from by omega)]
  rw [Int.toNat_natCast, List.take_length]
  simp only [hhuff]
  simp only [waveletDecLoop_id]
  rw [happly]
  simp only [hgather]
  rw [u16sToLEBytes_bytesToU16s bytes hb256 (by omega)]

/-! ### The claims about the block codec -/

/-- C1: for every valid channel list and rectangle and any pixel byte
buffer of the correct length, decompressing the output of the compressor
(with expected size equal to the original buffer length) returns exactly
the original pixel bytes. -/
theorem compress_decompress_roundtrip (channels : List Channel)
    (bytes : List Nat) (rect : IntRect) (hval : Valid channels bytes rect) :
    ∃ out, compress_bytes channels bytes rect = .ok out ∧
      decompress_bytes channels out rect bytes.length = .ok bytes := by
  by_cases hne : bytes = []
  · subst hne
    exact ⟨[], rfl, rfl⟩
  · obtain ⟨tmp1, hscat, hlen1, hmem, hgather⟩ :=
      scatter_setup channels bytes rect hval
    refine ⟨_, compress_eq channels bytes rect tmp1 hne hscat, ?_⟩
    simp only [List.append_assoc]
    exact decompress_eq channels bytes rect tmp1 _ _ _ _ hval rfl rfl rfl rfl
      hlen1 hmem hgather

/-- Witness for the round-trip: one F16 channel with y-sampling 1, a 1×1
rectangle at the origin, pixel bytes [7, 1]. -/
theorem compress_decompress_roundtrip_witness :
    Valid [⟨SampleType.f16, 1⟩] [7, 1] ⟨0, 0, 1, 1⟩ ∧
    ∃ out, compress_bytes [⟨SampleType.f16, 1⟩] [7, 1] ⟨0, 0, 1, 1⟩ =
        .ok out ∧
      decompress_bytes [⟨SampleType.f16, 1⟩] out ⟨0, 0, 1, 1⟩
        ([7, 1] : List Nat).length = .ok [7, 1] :=
  ⟨⟨by decide, by decide, by decide, by decide, by decide⟩,
    compress_decompress_roundtrip [⟨SampleType.f16, 1⟩] [7, 1] ⟨0, 0, 1, 1⟩
      ⟨by decide, by decide, by decide, by decide, by decide⟩⟩

/-- C3: the decompressor fails with the single validation error when the
header's max_nonzero is at least BITMAP_SIZE — for every continuation of
the input past the 4-byte header — and likewise when the signed 32-bit
length field is negative or exceeds the remaining input length. -/
theorem decompress_validation_errors :
    (∀ (channels : List Channel) (rect : IntRect) (n mn mx : Nat)
        (rest : List Nat), mn < U16_RANGE → mx < U16_RANGE →
        BITMAP_SIZE ≤ mx →
        decompress_bytes channels (toLE16 mn ++ (toLE16 mx ++ rest)) rect n =
          .invalid) ∧
    (∀ (channels : List Channel) (rect : IntRect) (n mn mx w : Nat)
        (S rest : List Nat), mn < U16_RANGE → mx < BITMAP_SIZE →
        (if mn ≤ mx then S.length = mx - mn + 1 else S = []) →
        w < 2 ^ 32 →
        (toSigned32 w < 0 ∨ (rest.length : Int) < toSigned32 w) →
        decompress_bytes channels
          (toLE16 mn ++ (toLE16 mx ++ (S ++ (toLE32 w ++ rest)))) rect n =
          .invalid) := by
  constructor
  · intro channels rect n mn mx rest hmn hmx hbig
    have hne : (toLE16 mn ++ (toLE16 mx ++ rest) : List Nat) ≠ [] := by
      simp [toLE16]
    unfold decompress_bytes
    rw [if_neg hne]
    simp only [readU16_toLE16 mn _ hmn, readU16_toLE16 mx _ hmx]
    rw [if_pos hbig]
  · intro channels rect n mn mx w S rest hmn hmx hS hw hbad
    have h8 : BITMAP_SIZE = 8192 := rfl
    have hmx65 : mx < U16_RANGE := by
      unfold U16_RANGE
      omega
    have hne : (toLE16 mn ++ (toLE16 mx ++ (S ++ (toLE32 w ++ rest))) :
        List Nat) ≠ [] := by
      simp [toLE16]
    have hSread : (if mn ≤ mx then
          readBytes (mx - mn + 1) (S ++ (toLE32 w ++ rest))
        else some ([], S ++ (toLE32 w ++ rest))) =
        some (S, toLE32 w ++ rest) := by
      by_cases hcmp : mn ≤ mx
      · rw [if_pos hcmp] at hS ⊢
        nth_rewrite 1 [← hS]
        exact readBytes_exact S (toLE32 w ++ rest)
      · rw [if_neg hcmp] at hS ⊢
        rw [hS, List.nil_append]
    unfold decompress_bytes
    rw [if_neg hne]
    simp only [readU16_toLE16 mn _ hmn, readU16_toLE16 mx _ hmx65]
    rw [if_neg (show ¬ BITMAP_SIZE ≤ mx from by omega)]
    simp only [hSread]
    simp only [readI32_toLE32 w _ hw]
    rw [if_pos hbad]

/-- Witness for the validation errors: the spec's `max_nonzero = 9000`
scenario, and a length field of 5 with no remaining input. -/
theorem decompress_validation_errors_witness :
    decompress_bytes [] (toLE16 0 ++ (toLE16 9000 ++ [])) ⟨0, 0, 0, 0⟩ 0 =
      .invalid ∧
    decompress_bytes []
      (toLE16 1 ++ (toLE16 0 ++ ([] ++ (toLE32 5 ++ [])))) ⟨0, 0, 0, 0⟩ 0 =
      .invalid :=
  ⟨decompress_validation_errors.1 [] ⟨0, 0, 0, 0⟩ 0 0 9000 [] (by decide)
      (by decide) (by decide),
    decompress_validation_errors.2 [] ⟨0, 0, 0, 0⟩ 0 1 0 5 [] [] (by decide)
      (by decide) (by decide) (by decide) (by decide)⟩

/-- C4: contrary to the spec's failure semantics, a Huffman failure during
decompression does not surface as an error value: the source unwraps the
`huffman::decompress` call, so on this well-formed header with a malformed
(1-byte) Huffman payload and expected size 2 the decompressor panics
(`crash`) instead of returning the collaborator's error. -/
theorem huffman_failure_crashes :
    decompress_bytes [] (toLE16 8191 ++ (toLE16 0 ++ (toLE32 1 ++ [0])))
      ⟨0, 0, 0, 0⟩ 2 = .crash := by
  rfl

/-- C9: the compressor and the decompressor both map an empty input buffer
to an empty output, for every channel list, rectangle and expected size. -/
theorem empty_in_empty_out (channels : List Channel) (rect : IntRect)
    (n : Nat) :
    compress_bytes channels [] rect = .ok [] ∧
    decompress_bytes channels [] rect n = .ok [] :=
  ⟨rfl, rfl⟩

/-- C8: for every valid non-empty input, the compressor's output is
exactly min_nonzero (LE u16), max_nonzero (LE u16), then — exactly when
min_nonzero ≤ max_nonzero — the bitmap bytes from min_nonzero through
max_nonzero inclusive, then the payload length as a little-endian 32-bit
word, then exactly the payload bytes, and nothing else. -/
theorem compress_output_layout (channels : List Channel) (bytes : List Nat)
    (rect : IntRect) (hval : Valid channels bytes rect) (hne : bytes ≠ []) :
    ∃ mn mx bm payload, bm.length = BITMAP_SIZE ∧ mx < BITMAP_SIZE ∧
      payload.length = bytes.length ∧
      compress_bytes channels bytes rect = .ok
        (toLE16 mn ++ toLE16 mx ++
          (if mn ≤ mx then sliceN bm mn (mx - mn + 1) else []) ++
          toLE32 payload.length ++ payload) := by
  obtain ⟨tmp1, hscat, hlen1, hmem, hgather⟩ :=
    scatter_setup channels bytes rect hval
  obtain ⟨hch, hrect, hblen, hb31, hb256⟩ := hval
  refine ⟨(bitmap_from_data tmp1).1, (bitmap_from_data tmp1).2.1,
    (bitmap_from_data tmp1).2.2,
    u16sToLEBytes (apply_lookup_table tmp1
      (forward_lookup_table_from_bitmap (bitmap_from_data tmp1).2.2).2),
    ?_, ?_, ?_, ?_⟩
  · exact maskedBitmap_length tmp1
  · show (scanMinMax (maskedBitmap tmp1)).2 < BITMAP_SIZE
    have h := (scanMinMax_le (maskedBitmap tmp1)).2
    rw [maskedBitmap_length] at h
    have h8 : BITMAP_SIZE = 8192 := rfl
    omega
  · rw [u16sToLEBytes_length]
    unfold apply_lookup_table
    rw [List.length_map, hlen1]
    omega
  · exact compress_eq channels bytes rect tmp1 hne hscat

/-- Witness for the output layout at the round-trip witness input. -/
theorem compress_output_layout_witness :
    (Valid [⟨SampleType.f16, 1⟩] [7, 1] ⟨0, 0, 1, 1⟩ ∧
      ([7, 1] : List Nat) ≠ []) ∧
    ∃ mn mx bm payload, bm.length = BITMAP_SIZE ∧ mx < BITMAP_SIZE ∧
      payload.length = ([7, 1] : List Nat).length ∧
      compress_bytes [⟨SampleType.f16, 1⟩] [7, 1] ⟨0, 0, 1, 1⟩ = .ok
        (toLE16 mn ++ toLE16 mx ++
          (if mn ≤ mx then sliceN bm mn (mx - mn + 1) else []) ++
          toLE32 payload.length ++ payload) :=
  ⟨⟨⟨by decide, by decide, by decide, by decide, by decide⟩, by decide⟩,
    compress_output_layout [⟨SampleType.f16, 1⟩] [7, 1] ⟨0, 0, 1, 1⟩
      ⟨by decide, by decide, by decide, by decide, by decide⟩ (by decide)⟩

end Piz
